import Mathlib

/-!
# Verification of the finm37000 roll-schedule and splicing core

This file gives a shallow embedding, in Lean 4, of the roll-schedule
construction and price-continuity engine of the `finm37000` package:

* `get_roll_spec` and `constant_maturity_splice` from
  `src/finm37000/__init__.py`, and
* `_splice_unadjusted`, `_calc_additive_adjustment`,
  `_calc_multiplicative_adjustment`, `additive_splice` and
  `multiplicative_splice` from `src/finm37000/continuous.py`,

together with theorems settling the specification's claims about them.

Modelling conventions:

* Calendar dates and daily timestamps are integers (`ℤ`, a day number);
  the Python code reduces all timestamps to `datetime.date` values before
  comparing, and iterates day by day, so date arithmetic is integer
  arithmetic.  Timestamps that can carry a time of day (expirations in the
  constant-maturity splice) are rationals (`ℚ`, fractional days).
* Prices and adjustment values are rationals (`ℚ`); the claims under
  study are exact algebraic identities, not floating-point statements.
* Fallible Python code (KeyError / IndexError / ValueError raising) is
  modelled with `Option`: `none` is "the call raises".
* Pandas data frames become lists of rows; a row's non-structural columns
  are a total valuation `String → ℚ` plus the list of column names kept
  at the frame level (`Frame`), which mirrors how the splicers treat the
  frame: generic columns plus the distinguished `instrument_id` and the
  date column.
-/

/-- Run an option-valued function over a list, failing if any element
fails.  This is the loop-with-append pattern of the Python code: each
iteration may raise, and a raise aborts the whole call. -/
def optionMapList {α β : Type} (f : α → Option β) : List α → Option (List β)
  | [] => some []
  | x :: xs =>
    match f x, optionMapList f xs with
    | some y, some ys => some (y :: ys)
    | _, _ => none

/-! ## Symbol parsing

`get_roll_spec` and `constant_maturity_splice` both parse the maturity day
count out of a product string such as `"SR3.cm.182"`:
`int(product.split(".")[-1])`, and `get_roll_spec` also takes the root
`product.split(".")[0]`.  We model `str.split(".")` by a structural
recursion over the character list, and `int(...)` on the digit strings the
code actually receives. -/

/-- Python's `s.split(".")` on the character list of `s`. -/
def splitOnDot : List Char → List (List Char)
  | [] => [[]]
  | c :: cs =>
    let r := splitOnDot cs
    if c = '.' then [] :: r
    else
      match r with
      | [] => [[c]]
      | h :: t => (c :: h) :: t

/-- Parse a nonempty string of decimal digits. -/
def parseDigits : List Char → Option ℕ
  | [] => none
  | cs => go cs 0
where
  go : List Char → ℕ → Option ℕ
    | [], acc => some acc
    | c :: cs, acc =>
      if c.isDigit then go cs (acc * 10 + (c.toNat - '0'.toNat))
      else none

/-- Python's `int(s)` restricted to the optionally-signed decimal
integers that arise as maturity suffixes. -/
def parseInt : List Char → Option ℤ
  | '-' :: cs => (parseDigits cs).map (fun n => -(n : ℤ))
  | cs => (parseDigits cs).map (fun n => (n : ℤ))

/-- `int(product.split(".")[-1])`: the maturity day count encoded in a
constant-maturity symbol, e.g. `"SR3.cm.182" ↦ 182`.  `none` is the
`ValueError` raised on an unparsable symbol. -/
def parseMaturityDays (product : String) : Option ℤ :=
  match (splitOnDot product.toList).getLast? with
  | none => none
  | some cs => parseInt cs

/-- `product.split(".")[0]`: the root symbol, e.g. `"SR3.cm.182" ↦ "SR3"`. -/
def rootOf (product : String) : List Char :=
  match splitOnDot product.toList with
  | [] => []
  | h :: _ => h

/-- Boolean string-prefix test, `raw_symbol.startswith(root)`. -/
def isPrefixList : List Char → List Char → Bool
  | [], _ => true
  | _ :: _, [] => false
  | a :: as, b :: bs => a = b && isPrefixList as bs

/-! ## The instrument catalog and `get_roll_spec`
(`src/finm37000/__init__.py`, lines 33–145)

A catalog row carries the columns `get_roll_spec` reads.  `expiration`
and `ts_recv` are the date-precision values the code computes with
(`pd.to_datetime(...).dt.date`). -/

structure InstRow where
  instrument_id : ℤ
  raw_symbol : String
  /-- `exp_date`: the expiration reduced to date precision, as a day number. -/
  expiration : ℤ
  instrument_class : String
  /-- `live_date`: the listed-since timestamp reduced to date precision. -/
  ts_recv : ℤ
deriving DecidableEq, Repr

/-- One output segment of the roll spec: `{d0, d1, p, n}` for the
half-open date range `[d0, d1)` selecting the contract pair `(p, n)`.
The Python code formats the dates/ids as strings; the values themselves
are dates and instrument ids. -/
structure Seg where
  d0 : ℤ
  d1 : ℤ
  p : ℤ
  n : ℤ
deriving DecidableEq, Repr

/-- Step 3 of `get_roll_spec`: keep outright futures of the product's
root: `df[(df.instrument_class == "F") & df.raw_symbol.str.startswith(root)]`. -/
def filteredDefs (product : String) (instrument_df : List InstRow) : List InstRow :=
  instrument_df.filter
    (fun r => r.instrument_class = "F" ∧ isPrefixList (rootOf product) r.raw_symbol.toList)

/-- Insert a row into a list sorted by expiration date. -/
def insertByExp (r : InstRow) : List InstRow → List InstRow
  | [] => [r]
  | s :: rest =>
    if r.expiration ≤ s.expiration then r :: s :: rest else s :: insertByExp r rest

/-- `df.sort_values("exp_date")`. -/
def sortByExp : List InstRow → List InstRow
  | [] => []
  | r :: rest => insertByExp r (sortByExp rest)

/-- The per-day selection of step 5 of `get_roll_spec`: among instruments
live on day `d` (`live_date <= d`), split at the target `d + T`:
expirations `< target` give the `previous` side, `>= target` the `next`
side; take the latest of the former and the earliest of the latter, or no
pair at all if either side is empty. -/
def selectPair (sorted : List InstRow) (T d : ℤ) : Option (ℤ × ℤ) :=
  let avail := sorted.filter (fun r => r.ts_recv ≤ d)
  let target := d + T
  let prevRows := avail.filter (fun r => r.expiration < target)
  let nextRows := avail.filter (fun r => target ≤ r.expiration)
  match prevRows.getLast?, nextRows.head? with
  | some pr, some nx => some (pr.instrument_id, nx.instrument_id)
  | _, _ => none

/-- A raw segment of the day loop before formatting: `(seg_start, current,
cur_pair)`, where the pair `none` stands for the Python `(None, None)`. -/
abbrev RawSeg : Type := ℤ × ℤ × Option (ℤ × ℤ)

/-- The day-by-day loop of `get_roll_spec` (`while current < end`),
run-length compressing consecutive days with an identical pair.  `fuel`
counts the remaining days, `cur = none` is the initial Python
`cur_pair = None`, and on exhaustion the last open segment is closed at
`end`. -/
def rollLoopGo (sorted : List InstRow) (T endD : ℤ) :
    ℤ → ℕ → Option (Option (ℤ × ℤ)) → ℤ → List RawSeg → List RawSeg
  | _, 0, cur, segStart, acc =>
    match cur with
    | none => acc
    | some c => acc ++ [(segStart, endD, c)]
  | t, fuel + 1, cur, segStart, acc =>
    let pair := selectPair sorted T t
    if some pair = cur then
      rollLoopGo sorted T endD (t + 1) fuel cur segStart acc
    else
      match cur with
      | none => rollLoopGo sorted T endD (t + 1) fuel (some pair) t acc
      | some c => rollLoopGo sorted T endD (t + 1) fuel (some pair) t (acc ++ [(segStart, t, c)])

/-- The raw segment list produced by the loop for `[start, end)`. -/
def rawSegments (sorted : List InstRow) (T start endD : ℤ) : List RawSeg :=
  rollLoopGo sorted T endD start (endD - start).toNat none start []

/-- Step 6 of `get_roll_spec`: format the segments, skipping those whose
pair could not be formed. -/
def keepValid (raw : List RawSeg) : List Seg :=
  raw.filterMap (fun s =>
    match s.2.2 with
    | some pn => some ⟨s.1, s.2.1, pn.1, pn.2⟩
    | none => none)

/-- `get_roll_spec(product, instrument_df, start, end)` of
`src/finm37000/__init__.py`.  `none` is the `ValueError` raised when the
maturity days cannot be parsed from the product string. -/
def get_roll_spec (product : String) (instrument_df : List InstRow) (start endD : ℤ) :
    Option (List Seg) :=
  match parseMaturityDays product with
  | none => none
  | some T =>
    let df := filteredDefs product instrument_df
    if df.isEmpty then some []
    else some (keepValid (rawSegments (sortByExp df) T start endD))

/-! ## `constant_maturity_splice`
(`src/finm37000/__init__.py`, lines 148–235)

Raw futures data for the constant-maturity splice: an instrument id, a
daily timestamp, a price and the instrument's expiration timestamp
(duplicated on every observation, as in the source data). -/

structure PriceRow where
  instrument_id : ℤ
  datetime : ℚ
  price : ℚ
  expiration : ℚ
deriving DecidableEq, Repr

/-- One output row of `constant_maturity_splice`.  `cm_price` is the
column the code names after the symbol itself. -/
structure CMRow where
  datetime : ℚ
  pre_price : ℚ
  pre_id : ℤ
  pre_expiration : ℚ
  next_price : ℚ
  next_id : ℤ
  next_expiration : ℚ
  pre_weight : ℚ
  cm_price : ℚ
deriving DecidableEq, Repr

/-- `pd.date_range(start=d0, end=d1, inclusive="left")` at daily
frequency: the day numbers `d0, d0+1, …, d1-1`. -/
def timeRange (d0 d1 : ℤ) : List ℚ :=
  (List.range (d1 - d0).toNat).map (fun i => ((d0 + i : ℤ) : ℚ))

/-- `frame.set_index(date_col).loc[time_range, price_col]` for a single
timestamp: the lookup succeeds only when the timestamp matches exactly
one row (a missing label raises `KeyError`; a duplicated one makes the
downstream arrays mismatched, which also raises). -/
def cmLookup (rows : List PriceRow) (t : ℚ) : Option ℚ :=
  match rows.filter (fun r => r.datetime = t) with
  | [r] => some r.price
  | _ => none

/-- The per-segment body of `constant_maturity_splice`'s loop: filter the
two instruments' data, read the expirations off the first rows, and build
one output row per timestamp of `[d0, d1)` with the interpolation weight
`(next_expiration - (t + T)) / (next_expiration - pre_expiration)` and
the blended price `w * pre + (1 - w) * next`. -/
def cmSegRows (T : ℤ) (allData : List PriceRow) (spec : Seg) : Option (List CMRow) :=
  let preData := allData.filter (fun r => r.instrument_id = spec.p)
  let nxtData := allData.filter (fun r => r.instrument_id = spec.n)
  match preData.head?, nxtData.head? with
  | some preFirst, some nxtFirst =>
    let preExp := preFirst.expiration
    let nxtExp := nxtFirst.expiration
    optionMapList
      (fun t =>
        match cmLookup preData t, cmLookup nxtData t with
        | some pp, some np =>
          let w := (nxtExp - (t + (T : ℚ))) / (nxtExp - preExp)
          some ⟨t, pp, spec.p, preExp, np, spec.n, nxtExp, w, w * pp + (1 - w) * np⟩
        | _, _ => none)
      (timeRange spec.d0 spec.d1)
  | _, _ => none

/-- `constant_maturity_splice(symbol, roll_spec, all_data)` of
`src/finm37000/__init__.py`: parse the maturity days from the symbol,
build each segment's rows, and concatenate the segments in order. -/
def constant_maturity_splice (symbol : String) (roll_spec : List Seg)
    (allData : List PriceRow) : Option (List CMRow) :=
  match parseMaturityDays symbol with
  | none => none
  | some T =>
    match optionMapList (cmSegRows T allData) roll_spec with
    | none => none
    | some segs => some segs.flatten

/-! ## The continuity splicers
(`src/finm37000/continuous.py`)

A data-frame row: the two structural columns the code reads
(`instrument_id` and the date column) plus a valuation of the named data
columns; a frame additionally remembers its column list, in order. -/

structure DRow where
  instrument_id : ℤ
  datetime : ℤ
  vals : String → ℚ

/-- A pandas data frame, reduced to what the splicers use: the ordered
list of column names (besides the two structural ones) and the rows. -/
structure Frame where
  cols : List String
  rows : List DRow

/-- A single-contract roll-spec entry `{d0, d1, s}` for the continuity
splicers: instrument `s` covers the half-open date range `[d0, d1)`. -/
structure CSpec where
  d0 : ℤ
  d1 : ℤ
  s : ℤ
deriving DecidableEq, Repr

/-- The default (junk) row used with positional `getD` lookups. -/
def dRow0 : DRow := ⟨0, 0, fun _ => 0⟩

/-- The default (junk) roll-spec entry used with positional `getD`. -/
def cSpec0 : CSpec := ⟨0, 0, 0⟩

/-- `df.groupby("instrument_id").get_group(s)` as a plain filter; the
pandas call raises `KeyError` when the group is empty, which the callers
below check via `List.isEmpty`. -/
def groupOf (df : List DRow) (s : ℤ) : List DRow :=
  df.filter (fun r => r.instrument_id = s)

/-- The rows a segment selects: instrument `s`'s rows with timestamp in
`[d0, d1)`. -/
def pieceOf (df : List DRow) (spec : CSpec) : List DRow :=
  (groupOf df spec.s).filter (fun r => spec.d0 ≤ r.datetime ∧ r.datetime < spec.d1)

/-- `_splice_unadjusted(roll_spec, df, date_col)`: concatenate each
segment's selected rows; raises (`KeyError`) when a segment's instrument
has no rows at all. -/
def spliceUnadjusted (roll_spec : List CSpec) (df : List DRow) : Option (List DRow) :=
  (optionMapList
    (fun spec =>
      if (groupOf df spec.s).isEmpty then none
      else some (pieceOf df spec))
    roll_spec).map List.flatten

/-- The shared loop of `_calc_additive_adjustment` and
`_calc_multiplicative_adjustment`; `op` is `-` (additive) or `/`
(multiplicative).  The state is the previous segment's
`(last_date, last_true_value)`; each later segment contributes
`(d0, op last_true_value (B value at last_date))`, where the `B` value is
looked up in the instrument's full series and missing data raises
(`IndexError` from `.iloc[-1]` on an empty selection), as does an empty
segment when reading its own last row. -/
def calcAdjGo (df : List DRow) (adjust_by : String) (op : ℚ → ℚ → ℚ) :
    Option (ℤ × ℚ) → List CSpec → Option (List (ℤ × ℚ))
  | _, [] => some []
  | st, spec :: rest =>
    let group := groupOf df spec.s
    if group.isEmpty then none
    else
      let piece := pieceOf df spec
      let headAdj : Option (List (ℤ × ℚ)) :=
        match st with
        | none => some []
        | some dv =>
          match (group.filter (fun r => r.datetime = dv.1)).getLast? with
          | none => none
          | some brow => some [(spec.d0, op dv.2 (brow.vals adjust_by))]
      match headAdj, piece.getLast? with
      | some h, some lastRow =>
        match calcAdjGo df adjust_by op (some (lastRow.datetime, lastRow.vals adjust_by)) rest with
        | some t => some (h ++ t)
        | none => none
      | _, _ => none

/-- `_calc_additive_adjustment(roll_spec, df, date_col, adjust_by)`:
the `(date, adjustment)` series with `adjustment = last_true_value - B`. -/
def calcAdditiveAdjustment (roll_spec : List CSpec) (df : List DRow) (adjust_by : String) :
    Option (List (ℤ × ℚ)) :=
  calcAdjGo df adjust_by (fun a b => a - b) none roll_spec

/-- `_calc_multiplicative_adjustment(...)`: same loop with
`adjustment = last_true_value / B`. -/
def calcMultiplicativeAdjustment (roll_spec : List CSpec) (df : List DRow) (adjust_by : String) :
    Option (List (ℤ × ℚ)) :=
  calcAdjGo df adjust_by (fun a b => a / b) none roll_spec

/-- `spliced.merge(adjustments, left_on=date_col, right_index=True,
how="left")` followed by `fillna(dflt)`: every spliced row is kept in
order and paired with each adjustment recorded at its date, or with the
fill value when there is none (a duplicated index date duplicates the
row, as the pandas merge does). -/
def attachAdjustment (series : List (ℤ × ℚ)) (dflt : ℚ) (rows : List DRow) :
    List (DRow × ℚ) :=
  rows.flatMap (fun r =>
    match series.filter (fun a => a.1 = r.datetime) with
    | [] => [(r, dflt)]
    | ms => ms.map (fun a => (r, a.2)))

/-- `cumsum` / `cumprod` over the attached adjustments: each row is
tagged with the running `op`-fold of the adjustments up to and including
its own. -/
def cumFold (op : ℚ → ℚ → ℚ) (acc : ℚ) : List (DRow × ℚ) → List (DRow × ℚ)
  | [] => []
  | p :: rest => (p.1, op acc p.2) :: cumFold op (op acc p.2) rest

/-- Write the adjusted columns back: each column in `adjustment_cols`
becomes `combine raw cumulative`, the new `adjName` column holds the
cumulative adjustment itself, and every other column keeps its raw
spliced value. -/
def applyRow (adjustment_cols : List String) (adjName : String)
    (combine : ℚ → ℚ → ℚ) (rc : DRow × ℚ) : DRow :=
  { instrument_id := rc.1.instrument_id
    datetime := rc.1.datetime
    vals := fun c =>
      if c = adjName then rc.2
      else if c ∈ adjustment_cols then combine (rc.1.vals c) rc.2
      else rc.1.vals c }

/-- `additive_splice(roll_spec, df, date_col, adjust_by, adjustment_cols)`
of `src/finm37000/continuous.py`: splice the raw segments, compute the
per-transition adjustments, left-merge them on the date, `fillna(0)`,
`cumsum`, add the cumulative adjustment to each adjusted column, and
append the `additive_adjustment` column after the original columns. -/
def additive_splice (roll_spec : List CSpec) (df : Frame) (adjust_by : String)
    (adjustment_cols : Option (List String)) : Option Frame :=
  let adjCols := adjustment_cols.getD [adjust_by]
  match spliceUnadjusted roll_spec df.rows,
        calcAdditiveAdjustment roll_spec df.rows adjust_by with
  | some spliced, some series =>
    some ⟨df.cols ++ ["additive_adjustment"],
      (cumFold (fun a b => a + b) 0 (attachAdjustment series 0 spliced)).map
        (applyRow adjCols "additive_adjustment" (fun v c => v + c))⟩
  | _, _ => none

/-- `multiplicative_splice(...)`: the same pipeline with `fillna(1)`,
`cumprod`, multiplication, and the `multiplicative_adjustment` column. -/
def multiplicative_splice (roll_spec : List CSpec) (df : Frame) (adjust_by : String)
    (adjustment_cols : Option (List String)) : Option Frame :=
  let adjCols := adjustment_cols.getD [adjust_by]
  match spliceUnadjusted roll_spec df.rows,
        calcMultiplicativeAdjustment roll_spec df.rows adjust_by with
  | some spliced, some series =>
    some ⟨df.cols ++ ["multiplicative_adjustment"],
      (cumFold (fun a b => a * b) 1 (attachAdjustment series 1 spliced)).map
        (applyRow adjCols "multiplicative_adjustment" (fun v c => v * c))⟩
  | _, _ => none

/-- The boundary adjustment between two consecutive schedule segments, as
the specification words it: `A_value(d) - B_value(d)` where `d` is the
last date present in the outgoing segment's selected rows and the `B`
value is looked up in the incoming instrument's full series at `d`.
For the additive splicer `op` is subtraction. -/
def transitionAdj (df : List DRow) (adjust_by : String) (op : ℚ → ℚ → ℚ)
    (s1 s2 : CSpec) : Option ℚ :=
  match (pieceOf df s1).getLast? with
  | none => none
  | some lastRow =>
    match ((groupOf df s2.s).filter (fun r => r.datetime = lastRow.datetime)).getLast? with
    | none => none
    | some brow => some (op (lastRow.vals adjust_by) (brow.vals adjust_by))

/-- The cumulative additive adjustment in force on segment `k`: the
running sum of the first `k` per-transition adjustments. -/
def cumAdjAt (df : List DRow) (adjust_by : String) (roll_spec : List CSpec) (k : ℕ) : ℚ :=
  ((List.range k).map (fun i =>
    (transitionAdj df adjust_by (fun a b => a - b)
      (roll_spec.getD i cSpec0) (roll_spec.getD (i + 1) cSpec0)).getD 0)).sum

/-- The sorted, filtered catalog that `get_roll_spec` selects pairs
from: outright futures of the product's root, sorted by expiration. -/
def liveSorted (product : String) (instrument_df : List InstRow) : List InstRow :=
  sortByExp (filteredDefs product instrument_df)

/-- The index in the spliced output at which segment `k`'s rows start:
the total length of the earlier segments' selected rows. -/
def segOffset (df : List DRow) (roll_spec : List CSpec) (k : ℕ) : ℕ :=
  ((List.range k).map (fun j => (pieceOf df (roll_spec.getD j cSpec0)).length)).sum

/-- `Runs f a segs c`: `segs` is the run-length encoding of the day
function `f` over the day range `[a, c)` — each segment is a nonempty
maximal run of consecutive days with one value of `f`, the segments tile
`[a, c)` in order, and consecutive segments carry different values. -/
inductive Runs (f : ℤ → Option (ℤ × ℤ)) : ℤ → List RawSeg → ℤ → Prop
  | nil (a : ℤ) : Runs f a [] a
  | cons (a b c : ℤ) (v : Option (ℤ × ℤ)) (segs : List RawSeg) :
      a < b →
      (∀ d, a ≤ d → d < b → f d = v) →
      (∀ s, segs.head? = some s → s.2.2 ≠ v) →
      Runs f b segs c →
      Runs f a ((a, b, v) :: segs) c

/-! ## Generic lemmas about the option-valued loop -/

theorem optionMapList_mem {α β : Type} {f : α → Option β} :
    ∀ {xs : List α} {ys : List β}, optionMapList f xs = some ys →
      ∀ y ∈ ys, ∃ x ∈ xs, f x = some y := by
  intro xs
  induction xs with
  | nil =>
    intro ys h y hy
    simp only [optionMapList, Option.some.injEq] at h
    subst h
    simp at hy
  | cons x xs ih =>
    intro ys h y hy
    simp only [optionMapList] at h
    cases hfx : f x with
    | none => rw [hfx] at h; exact absurd h (by simp)
    | some y0 =>
      rw [hfx] at h
      cases hrest : optionMapList f xs with
      | none => rw [hrest] at h; exact absurd h (by simp)
      | some ys0 =>
        rw [hrest] at h
        simp only [Option.some.injEq] at h
        subst h
        rcases List.mem_cons.mp hy with hy | hy
        · exact ⟨x, List.mem_cons_self x xs, by rw [hfx, hy]⟩
        · obtain ⟨x1, hx1, hfx1⟩ := ih hrest y hy
          exact ⟨x1, List.mem_cons_of_mem x hx1, hfx1⟩

theorem optionMapList_isSome {α β : Type} {f : α → Option β} :
    ∀ {xs : List α} {ys : List β}, optionMapList f xs = some ys →
      ∀ x ∈ xs, (f x).isSome := by
  intro xs
  induction xs with
  | nil => intro ys _ x hx; simp at hx
  | cons x0 xs ih =>
    intro ys h x hx
    simp only [optionMapList] at h
    cases hfx : f x0 with
    | none => rw [hfx] at h; exact absurd h (by simp)
    | some y0 =>
      rw [hfx] at h
      cases hrest : optionMapList f xs with
      | none => rw [hrest] at h; exact absurd h (by simp)
      | some ys0 =>
        rcases List.mem_cons.mp hx with hx | hx
        · subst hx; simp [hfx]
        · exact ih hrest x hx

theorem optionMapList_eq_map {α β : Type} {f : α → Option β} {g : α → β} :
    ∀ {xs : List α}, (∀ x ∈ xs, f x = some (g x)) →
      optionMapList f xs = some (xs.map g) := by
  intro xs
  induction xs with
  | nil => intro _; rfl
  | cons x xs ih =>
    intro h
    have hx := h x (List.mem_cons_self x xs)
    have hrest := ih (fun y hy => h y (List.mem_cons_of_mem x hy))
    simp only [optionMapList, hx, hrest, List.map_cons]

theorem optionMapList_eq_of_some {α β : Type} {f : α → Option β} {g : α → β} :
    ∀ {xs : List α} {ys : List β}, optionMapList f xs = some ys →
      (∀ x ∈ xs, f x = some (g x)) → ys = xs.map g := by
  intro xs ys h hg
  have := optionMapList_eq_map hg
  rw [h] at this
  exact (Option.some.injEq _ _).mp this

/-! ## Claim C1: the constant-maturity weight and blend formulas -/

/-- C1.  For every row produced by `constant_maturity_splice`, the
`pre_weight` column equals
`(next_expiration - (t + T)) / (next_expiration - pre_expiration)` where
`t` is the row's timestamp and `T` is the day count parsed from the
symbol suffix, and the output price column named by the symbol equals
`pre_weight * pre_price + (1 - pre_weight) * next_price`.  The weight is
exactly the unclamped quotient, so values outside `[0, 1]` are emitted
unchanged. -/
theorem constant_maturity_splice_weight_blend
    (symbol : String) (roll_spec : List Seg) (allData : List PriceRow) (T : ℤ)
    (hT : parseMaturityDays symbol = some T) :
    ∀ row ∈ (constant_maturity_splice symbol roll_spec allData).getD [],
      row.pre_weight =
        (row.next_expiration - (row.datetime + (T : ℚ))) /
          (row.next_expiration - row.pre_expiration) ∧
      row.cm_price =
        row.pre_weight * row.pre_price + (1 - row.pre_weight) * row.next_price := by
  intro row hrow
  cases hsegs : optionMapList (cmSegRows T allData) roll_spec with
  | none => simp [constant_maturity_splice, hT, hsegs] at hrow
  | some segs =>
    simp only [constant_maturity_splice, hT, hsegs, Option.getD_some] at hrow
    obtain ⟨lrows, hlrows, hrowmem⟩ := List.mem_flatten.mp hrow
    obtain ⟨spec, _hspec, hseg⟩ := optionMapList_mem hsegs lrows hlrows
    cases hpre : (allData.filter (fun r => r.instrument_id = spec.p)).head? with
    | none => simp [cmSegRows, hpre] at hseg
    | some preFirst =>
      cases hnxt : (allData.filter (fun r => r.instrument_id = spec.n)).head? with
      | none => simp [cmSegRows, hpre, hnxt] at hseg
      | some nxtFirst =>
        simp only [cmSegRows, hpre, hnxt] at hseg
        obtain ⟨t, _ht, hrow2⟩ := optionMapList_mem hseg row hrowmem
        cases hpp : cmLookup (allData.filter (fun r => r.instrument_id = spec.p)) t with
        | none => simp [hpp] at hrow2
        | some pp =>
          cases hnp : cmLookup (allData.filter (fun r => r.instrument_id = spec.n)) t with
          | none => simp [hpp, hnp] at hrow2
          | some np =>
            simp only [hpp, hnp, Option.some.injEq] at hrow2
            subst hrow2
            exact ⟨rfl, rfl⟩

/-- Witness for C1: a concrete call on two instruments (expirations 1 and
3, prices 10 and 20) with maturity suffix `0`; the weight there is `3/2`,
outside `[0, 1]`, and the theorem applies to it unchanged. -/
theorem constant_maturity_splice_weight_blend_witness :
    parseMaturityDays "A.cm.0" = some 0 ∧
      ∀ row ∈ (constant_maturity_splice "A.cm.0" [⟨0, 1, 5, 6⟩]
          [⟨5, 0, 10, 1⟩, ⟨6, 0, 20, 3⟩]).getD [],
        row.pre_weight =
          (row.next_expiration - (row.datetime + ((0 : ℤ) : ℚ))) /
            (row.next_expiration - row.pre_expiration) ∧
        row.cm_price =
          row.pre_weight * row.pre_price + (1 - row.pre_weight) * row.next_price :=
  ⟨by decide, constant_maturity_splice_weight_blend _ _ _ _ (by decide)⟩

/-! ## Lemmas about the adjustment loop `calcAdjGo` -/

theorem calcAdjGo_piece_isSome {df : List DRow} {ab : String} {op : ℚ → ℚ → ℚ} :
    ∀ {rs : List CSpec} {st : Option (ℤ × ℚ)} {l : List (ℤ × ℚ)},
      calcAdjGo df ab op st rs = some l →
      ∀ spec ∈ rs, ((pieceOf df spec).getLast?).isSome := by
  intro rs
  induction rs with
  | nil => intro st l _ spec hmem; simp at hmem
  | cons spec0 rest ih =>
    intro st l h spec hmem
    simp only [calcAdjGo] at h
    split at h
    · exact absurd h (by simp)
    · split at h
      next hseries lastRow hhead hlast =>
        rcases List.mem_cons.mp hmem with hsp | hsp
        · subst hsp; simp [hlast]
        · split at h
          next t hrec => exact ih hrec spec hsp
          next => exact absurd h (by simp)
      next => exact absurd h (by simp)

theorem calcAdjGo_cons_some {df : List DRow} {ab : String} {op : ℚ → ℚ → ℚ}
    {spec : CSpec} {rest : List CSpec} {st : Option (ℤ × ℚ)} {l : List (ℤ × ℚ)}
    (h : calcAdjGo df ab op st (spec :: rest) = some l) :
    ∃ lastRow, (pieceOf df spec).getLast? = some lastRow ∧
      ∃ t, calcAdjGo df ab op (some (lastRow.datetime, lastRow.vals ab)) rest = some t := by
  simp only [calcAdjGo] at h
  split at h
  · exact absurd h (by simp)
  · split at h
    next hseries lastRow hhead hlast =>
      split at h
      next t hrec => exact ⟨lastRow, hlast, t, hrec⟩
      next => exact absurd h (by simp)
    next => exact absurd h (by simp)

theorem calcAdjGo_some_st_lookup {df : List DRow} {ab : String} {op : ℚ → ℚ → ℚ}
    {spec : CSpec} {rest : List CSpec} {dv : ℤ × ℚ} {l : List (ℤ × ℚ)}
    (h : calcAdjGo df ab op (some dv) (spec :: rest) = some l) :
    ∃ brow ∈ groupOf df spec.s, brow.datetime = dv.1 := by
  simp only [calcAdjGo] at h
  split at h
  · exact absurd h (by simp)
  · cases hlook : ((groupOf df spec.s).filter (fun r => r.datetime = dv.1)).getLast? with
    | none => rw [hlook] at h; exact absurd h (by simp)
    | some brow =>
      have hmem := List.mem_filter.mp (List.mem_of_mem_getLast? hlook)
      exact ⟨brow, hmem.1, of_decide_eq_true hmem.2⟩

theorem calcAdjGo_blookup {df : List DRow} {ab : String} {op : ℚ → ℚ → ℚ} :
    ∀ {rs : List CSpec} {st : Option (ℤ × ℚ)} {l : List (ℤ × ℚ)},
      calcAdjGo df ab op st rs = some l →
      ∀ i, i + 1 < rs.length →
        ∃ lastRow, (pieceOf df (rs.getD i cSpec0)).getLast? = some lastRow ∧
          ∃ brow ∈ groupOf df (rs.getD (i + 1) cSpec0).s,
            brow.datetime = lastRow.datetime := by
  intro rs
  induction rs with
  | nil => intro st l _ i hi; simp at hi
  | cons spec0 rest ih =>
    intro st l h i hi
    obtain ⟨lastRow, hlast, t, hrec⟩ := calcAdjGo_cons_some h
    cases i with
    | zero =>
      cases rest with
      | nil => simp at hi
      | cons spec1 rest2 =>
        obtain ⟨brow, hbmem, hbdt⟩ := calcAdjGo_some_st_lookup hrec
        exact ⟨lastRow, by simpa using hlast, brow, by simpa using hbmem, hbdt⟩
    | succ j =>
      have hj : j + 1 < rest.length := by
        simpa [Nat.succ_lt_succ_iff] using hi
      obtain ⟨lr, hlr, hb⟩ := ih hrec j hj
      exact ⟨lr, by simpa using hlr, by simpa using hb⟩

theorem calcAdjGo_none_of_empty {df : List DRow} {ab : String} {op : ℚ → ℚ → ℚ}
    {rs : List CSpec} (h : ∃ spec ∈ rs, pieceOf df spec = []) :
    calcAdjGo df ab op none rs = none := by
  cases hres : calcAdjGo df ab op none rs with
  | none => rfl
  | some l =>
    obtain ⟨bad, hmem, hempty⟩ := h
    have := calcAdjGo_piece_isSome hres bad hmem
    rw [hempty] at this
    simp at this

theorem additive_splice_eq_none {roll_spec : List CSpec} {df : Frame} {adjust_by : String}
    {adjustment_cols : Option (List String)}
    (h : calcAdditiveAdjustment roll_spec df.rows adjust_by = none) :
    additive_splice roll_spec df adjust_by adjustment_cols = none := by
  unfold additive_splice
  rw [h]
  cases spliceUnadjusted roll_spec df.rows <;> rfl

theorem multiplicative_splice_eq_none {roll_spec : List CSpec} {df : Frame}
    {adjust_by : String} {adjustment_cols : Option (List String)}
    (h : calcMultiplicativeAdjustment roll_spec df.rows adjust_by = none) :
    multiplicative_splice roll_spec df adjust_by adjustment_cols = none := by
  unfold multiplicative_splice
  rw [h]
  cases spliceUnadjusted roll_spec df.rows <;> rfl

/-! ## Claim C10: a segment selecting no rows is an error -/

/-- C10.  The splicers require every schedule segment to select at least
one row of its instrument with timestamp in `[d0, d1)`: under that
precondition the per-segment last-value lookups (`piece.iloc[-1]`) all
succeed, and a schedule containing a segment with no such row makes both
`additive_splice` and `multiplicative_splice` raise rather than skip the
segment. -/
theorem splice_empty_segment_errors
    (roll_spec : List CSpec) (df : Frame) (adjust_by : String)
    (adjustment_cols : Option (List String)) :
    ((∀ spec ∈ roll_spec, pieceOf df.rows spec ≠ []) →
       ∀ spec ∈ roll_spec, ((pieceOf df.rows spec).getLast?).isSome) ∧
    ((∃ spec ∈ roll_spec, pieceOf df.rows spec = []) →
       additive_splice roll_spec df adjust_by adjustment_cols = none ∧
       multiplicative_splice roll_spec df adjust_by adjustment_cols = none) := by
  constructor
  · intro h spec hmem
    simp [List.getLast?_isSome, h spec hmem]
  · intro h
    exact ⟨additive_splice_eq_none (calcAdjGo_none_of_empty h),
      multiplicative_splice_eq_none (calcAdjGo_none_of_empty h)⟩

/-- Witness for C10, applying the theorem twice: once on a schedule whose
single segment selects one row (the lookup succeeds), once on a schedule
whose segment selects nothing (both splicers error). -/
theorem splice_empty_segment_errors_witness :
    (∀ spec ∈ [(⟨0, 1, 8⟩ : CSpec)],
      ((pieceOf [(⟨8, 0, fun _ => 5⟩ : DRow)] spec).getLast?).isSome) ∧
    (additive_splice [⟨0, 1, 7⟩] ⟨["close"], [⟨8, 0, fun _ => 5⟩]⟩ "close" none = none ∧
     multiplicative_splice [⟨0, 1, 7⟩] ⟨["close"], [⟨8, 0, fun _ => 5⟩]⟩ "close" none = none) :=
  ⟨(splice_empty_segment_errors [⟨0, 1, 8⟩] ⟨["close"], [⟨8, 0, fun _ => 5⟩]⟩ "close" none).1
      (fun spec hmem => by
        rcases List.mem_singleton.mp hmem with rfl
        rw [show pieceOf [(⟨8, 0, fun _ => 5⟩ : DRow)] ⟨0, 1, 8⟩ =
          [⟨8, 0, fun _ => 5⟩] from rfl]
        simp),
    (splice_empty_segment_errors [⟨0, 1, 7⟩] ⟨["close"], [⟨8, 0, fun _ => 5⟩]⟩ "close" none).2
      ⟨⟨0, 1, 7⟩, List.mem_singleton.mpr rfl, rfl⟩⟩

/-! ## Claim C8: a missing boundary observation is an error -/

/-- C8.  If the instrument of segment `i+1` has no observation at the
boundary date `d` — the last date present in segment `i`'s selected
rows — then both `additive_splice` and `multiplicative_splice` raise for
that call; no interpolation or fallback value is substituted for the
adjustment. -/
theorem splice_missing_boundary_errors
    (roll_spec : List CSpec) (df : Frame) (adjust_by : String)
    (adjustment_cols : Option (List String)) (i : ℕ) (d : ℤ)
    (hi : i + 1 < roll_spec.length)
    (hd : ((pieceOf df.rows (roll_spec.getD i cSpec0)).getLast?).map
        (fun r => r.datetime) = some d)
    (hmiss : ∀ r ∈ df.rows,
      r.instrument_id = (roll_spec.getD (i + 1) cSpec0).s → r.datetime ≠ d) :
    additive_splice roll_spec df adjust_by adjustment_cols = none ∧
    multiplicative_splice roll_spec df adjust_by adjustment_cols = none := by
  have key : ∀ op : ℚ → ℚ → ℚ, calcAdjGo df.rows adjust_by op none roll_spec = none := by
    intro op
    cases hres : calcAdjGo df.rows adjust_by op none roll_spec with
    | none => rfl
    | some l =>
      obtain ⟨lastRow, hlast, brow, hbmem, hbdt⟩ := calcAdjGo_blookup hres i hi
      rw [hlast] at hd
      rw [Option.map_some'] at hd
      have hbrow := List.mem_filter.mp hbmem
      exact absurd (hbdt.trans ((Option.some.injEq _ _).mp hd))
        (hmiss brow hbrow.1 (of_decide_eq_true hbrow.2))
  exact ⟨additive_splice_eq_none (key _), multiplicative_splice_eq_none (key _)⟩

/-- Witness for C8: instrument 1 covers `[0, 2)` with rows on days 0 and
1, instrument 2 covers `[2, 4)` but has no row on day 1 (the last date of
segment 0), so both splicers error. -/
theorem splice_missing_boundary_errors_witness :
    (0 + 1 < ([⟨0, 2, 1⟩, ⟨2, 4, 2⟩] : List CSpec).length) ∧
    additive_splice [⟨0, 2, 1⟩, ⟨2, 4, 2⟩]
      ⟨["close"], [⟨1, 0, fun _ => 10⟩, ⟨1, 1, fun _ => 11⟩, ⟨2, 3, fun _ => 12⟩]⟩
      "close" none = none ∧
    multiplicative_splice [⟨0, 2, 1⟩, ⟨2, 4, 2⟩]
      ⟨["close"], [⟨1, 0, fun _ => 10⟩, ⟨1, 1, fun _ => 11⟩, ⟨2, 3, fun _ => 12⟩]⟩
      "close" none = none := by
  refine ⟨by decide, splice_missing_boundary_errors _ _ _ _ 0 1 (by decide) rfl ?_⟩
  intro r hr hs
  fin_cases hr <;> simp_all

/-! ## Characterizing the successful runs of the splicers -/

theorem spliceUnadjusted_eq {roll_spec : List CSpec} {df : List DRow} {l : List DRow}
    (h : spliceUnadjusted roll_spec df = some l) :
    l = roll_spec.flatMap (pieceOf df) := by
  unfold spliceUnadjusted at h
  cases hm : optionMapList
      (fun spec => if (groupOf df spec.s).isEmpty then none else some (pieceOf df spec))
      roll_spec with
  | none => rw [hm] at h; exact absurd h (by simp)
  | some pieces =>
    rw [hm] at h
    simp only [Option.map_some', Option.some.injEq] at h
    have hp : pieces = roll_spec.map (pieceOf df) := by
      refine optionMapList_eq_of_some hm (fun spec hmem => ?_)
      have := optionMapList_isSome hm spec hmem
      by_cases hg : (groupOf df spec.s).isEmpty
      · rw [hg] at this; simp at this
      · simp [hg]
    rw [← h, hp]
    exact (List.flatMap_def _ _).symm

theorem calcAdjGo_eq_indexed {df : List DRow} {ab : String} {op : ℚ → ℚ → ℚ} :
    ∀ {rs : List CSpec} {prevSpec : CSpec} {dv : ℤ × ℚ} {l : List (ℤ × ℚ)},
      ((pieceOf df prevSpec).getLast?).map (fun r => (r.datetime, r.vals ab)) = some dv →
      calcAdjGo df ab op (some dv) rs = some l →
      l = (List.range rs.length).map (fun i =>
        ((rs.getD i cSpec0).d0,
          (transitionAdj df ab op ((prevSpec :: rs).getD i cSpec0)
            (rs.getD i cSpec0)).getD 0)) := by
  intro rs
  induction rs with
  | nil =>
    intro prevSpec dv l _ h
    simp only [calcAdjGo, Option.some.injEq] at h
    subst h
    simp
  | cons spec rest ih =>
    intro prevSpec dv l hdv h
    cases hr0 : (pieceOf df prevSpec).getLast? with
    | none => rw [hr0] at hdv; exact absurd hdv (by simp)
    | some r0 =>
      rw [hr0, Option.map_some'] at hdv
      replace hdv := (Option.some.injEq _ _).mp hdv
      simp only [calcAdjGo] at h
      split at h
      · exact absurd h (by simp)
      · cases hlook : ((groupOf df spec.s).filter (fun r => r.datetime = dv.1)).getLast? with
        | none => simp [hlook] at h
        | some brow =>
          cases hlast : (pieceOf df spec).getLast? with
          | none => simp [hlook, hlast] at h
          | some lastRow =>
            cases hrec : calcAdjGo df ab op
                (some (lastRow.datetime, lastRow.vals ab)) rest with
            | none => simp [hlook, hlast, hrec] at h
            | some t =>
              simp only [hlook, hlast, hrec, Option.some.injEq] at h
              have ht := @ih spec _ _
                (by rw [hlast, Option.map_some']) hrec
              have h1 : r0.datetime = dv.1 := by rw [← hdv]
              have h2 : r0.vals ab = dv.2 := by rw [← hdv]
              have htrans : transitionAdj df ab op prevSpec spec
                  = some (op dv.2 (brow.vals ab)) := by
                unfold transitionAdj
                simp only [hr0, h1, h2, hlook]
              subst h ht
              rw [List.length_cons, List.range_succ_eq_map, List.map_cons, List.map_map,
                List.singleton_append]
              refine List.cons_eq_cons.mpr ⟨?_, ?_⟩
              · simp [htrans]
              · refine List.map_congr_left (fun i _ => ?_)
                simp

theorem calcAdjGo_none_eq_indexed {df : List DRow} {ab : String} {op : ℚ → ℚ → ℚ}
    {rs : List CSpec} {l : List (ℤ × ℚ)}
    (h : calcAdjGo df ab op none rs = some l) :
    l = (List.range (rs.length - 1)).map (fun i =>
      ((rs.getD (i + 1) cSpec0).d0,
        (transitionAdj df ab op (rs.getD i cSpec0) (rs.getD (i + 1) cSpec0)).getD 0)) := by
  cases rs with
  | nil =>
    simp only [calcAdjGo, Option.some.injEq] at h
    subst h
    simp
  | cons spec0 rest =>
    simp only [calcAdjGo] at h
    split at h
    · exact absurd h (by simp)
    · cases hlast : (pieceOf df spec0).getLast? with
      | none => simp [hlast] at h
      | some lastRow =>
        cases hrec : calcAdjGo df ab op (some (lastRow.datetime, lastRow.vals ab)) rest with
        | none => simp [hlast, hrec] at h
        | some t =>
          simp only [hlast, hrec, Option.some.injEq, List.nil_append] at h
          have ht := @calcAdjGo_eq_indexed _ _ _ _ spec0 _ _
            (by rw [hlast, Option.map_some']) hrec
          subst h ht
          refine List.map_congr_left (fun i _ => ?_)
          simp

/-! ## The merge / cumulate / apply pipeline -/

theorem attachAdjustment_singleton {series : List (ℤ × ℚ)} {dflt : ℚ} :
    ∀ {spl : List DRow},
      (∀ r ∈ spl, (series.filter (fun a => a.1 = r.datetime)).length ≤ 1) →
      attachAdjustment series dflt spl = spl.map (fun r =>
        (r, match series.filter (fun a => a.1 = r.datetime) with
            | [] => dflt
            | a :: _ => a.2)) := by
  intro spl
  induction spl with
  | nil => intro _; rfl
  | cons r rest ih =>
    intro hu
    have hrest := ih (fun x hx => hu x (List.mem_cons_of_mem r hx))
    unfold attachAdjustment at hrest ⊢
    rw [List.flatMap_cons, hrest, List.map_cons]
    cases hf : series.filter (fun a => a.1 = r.datetime) with
    | nil => rfl
    | cons a t =>
      have := hu r (List.mem_cons_self r rest)
      rw [hf] at this
      have ht : t = [] := by
        cases t with
        | nil => rfl
        | cons b u => simp at this
      subst ht
      rfl

theorem cumFold_map_fst {op : ℚ → ℚ → ℚ} :
    ∀ {xs : List (DRow × ℚ)} {acc : ℚ},
      (cumFold op acc xs).map Prod.fst = xs.map Prod.fst := by
  intro xs
  induction xs with
  | nil => intro acc; rfl
  | cons p rest ih => intro acc; simp only [cumFold, List.map_cons, ih]

theorem cumFold_length {op : ℚ → ℚ → ℚ} {xs : List (DRow × ℚ)} {acc : ℚ} :
    (cumFold op acc xs).length = xs.length := by
  have := @cumFold_map_fst op xs acc
  calc (cumFold op acc xs).length = ((cumFold op acc xs).map Prod.fst).length := by simp
    _ = (xs.map Prod.fst).length := by rw [this]
    _ = xs.length := by simp

theorem mapApply_untouched {adjCols : List String} {adjName : String}
    {combine : ℚ → ℚ → ℚ} :
    ∀ {xs : List (DRow × ℚ)} {spl : List DRow}, xs.map Prod.fst = spl →
      (xs.map (applyRow adjCols adjName combine)).length = spl.length ∧
      ∀ i, i < spl.length →
        ((xs.map (applyRow adjCols adjName combine)).getD i dRow0).instrument_id
          = (spl.getD i dRow0).instrument_id ∧
        ((xs.map (applyRow adjCols adjName combine)).getD i dRow0).datetime
          = (spl.getD i dRow0).datetime ∧
        ∀ c, c ∉ adjCols → c ≠ adjName →
          ((xs.map (applyRow adjCols adjName combine)).getD i dRow0).vals c
            = (spl.getD i dRow0).vals c := by
  intro xs
  induction xs with
  | nil =>
    intro spl hx
    rw [← hx]
    exact ⟨rfl, fun i hi => by simp at hi⟩
  | cons p rest ih =>
    intro spl hx
    rw [← hx]
    obtain ⟨ihlen, ihpt⟩ := @ih (rest.map Prod.fst) rfl
    refine ⟨by simpa using ihlen, fun i hi => ?_⟩
    cases i with
    | zero =>
      refine ⟨rfl, rfl, fun c hc1 hc2 => ?_⟩
      simp only [List.map_cons, List.getD_cons_zero, applyRow]
      rw [if_neg hc2, if_neg hc1]
    | succ j =>
      have hj : j < (rest.map Prod.fst).length := by
        simpa [Nat.succ_lt_succ_iff] using hi
      simpa using ihpt j hj

theorem pipeline_untouched {series : List (ℤ × ℚ)} {spl : List DRow} {dflt acc : ℚ}
    {op combine : ℚ → ℚ → ℚ} {adjCols : List String} {adjName : String}
    (hu : ∀ r ∈ spl, (series.filter (fun a => a.1 = r.datetime)).length ≤ 1) :
    ((cumFold op acc (attachAdjustment series dflt spl)).map
        (applyRow adjCols adjName combine)).length = spl.length ∧
    ∀ i, i < spl.length →
      (((cumFold op acc (attachAdjustment series dflt spl)).map
          (applyRow adjCols adjName combine)).getD i dRow0).instrument_id
        = (spl.getD i dRow0).instrument_id ∧
      (((cumFold op acc (attachAdjustment series dflt spl)).map
          (applyRow adjCols adjName combine)).getD i dRow0).datetime
        = (spl.getD i dRow0).datetime ∧
      ∀ c, c ∉ adjCols → c ≠ adjName →
        (((cumFold op acc (attachAdjustment series dflt spl)).map
            (applyRow adjCols adjName combine)).getD i dRow0).vals c
          = (spl.getD i dRow0).vals c := by
  refine mapApply_untouched ?_
  rw [attachAdjustment_singleton hu, cumFold_map_fst, List.map_map]
  have hcomp : (Prod.fst ∘ fun r : DRow =>
      (r, match series.filter (fun a => a.1 = r.datetime) with
          | [] => dflt
          | a :: _ => a.2)) = id := rfl
  rw [hcomp, List.map_id]

/-! ## Claim C9: untouched columns and output column order -/

/-- C9.  For both splicers, every column not listed in `adjustment_cols`
(default: just the `adjust_by` column) keeps its raw unadjusted spliced
value in the output, row for row, and the output's columns are exactly
the input frame's columns in their original order followed by the single
cumulative-adjustment column.  The uniqueness hypotheses say that no
spliced row's date carries two recorded adjustments, which is what the
pandas left merge needs to keep the row set unchanged. -/
theorem splice_untouched_columns
    (roll_spec : List CSpec) (df : Frame) (adjust_by : String)
    (adjustment_cols : Option (List String))
    (hA : (additive_splice roll_spec df adjust_by adjustment_cols).isSome = true)
    (hM : (multiplicative_splice roll_spec df adjust_by adjustment_cols).isSome = true)
    (huA : ∀ r ∈ (spliceUnadjusted roll_spec df.rows).getD [],
      (((calcAdditiveAdjustment roll_spec df.rows adjust_by).getD []).filter
        (fun a => a.1 = r.datetime)).length ≤ 1)
    (huM : ∀ r ∈ (spliceUnadjusted roll_spec df.rows).getD [],
      (((calcMultiplicativeAdjustment roll_spec df.rows adjust_by).getD []).filter
        (fun a => a.1 = r.datetime)).length ≤ 1) :
    ((additive_splice roll_spec df adjust_by adjustment_cols).getD ⟨[], []⟩).cols
      = df.cols ++ ["additive_adjustment"] ∧
    ((multiplicative_splice roll_spec df adjust_by adjustment_cols).getD ⟨[], []⟩).cols
      = df.cols ++ ["multiplicative_adjustment"] ∧
    ((additive_splice roll_spec df adjust_by adjustment_cols).getD ⟨[], []⟩).rows.length
      = ((spliceUnadjusted roll_spec df.rows).getD []).length ∧
    ((multiplicative_splice roll_spec df adjust_by adjustment_cols).getD ⟨[], []⟩).rows.length
      = ((spliceUnadjusted roll_spec df.rows).getD []).length ∧
    ∀ i, i < ((spliceUnadjusted roll_spec df.rows).getD []).length →
      ∀ c, c ∉ adjustment_cols.getD [adjust_by] →
        c ≠ "additive_adjustment" → c ≠ "multiplicative_adjustment" →
        ((((additive_splice roll_spec df adjust_by adjustment_cols).getD
            ⟨[], []⟩).rows.getD i dRow0).vals c
          = (((spliceUnadjusted roll_spec df.rows).getD []).getD i dRow0).vals c ∧
         (((multiplicative_splice roll_spec df adjust_by adjustment_cols).getD
            ⟨[], []⟩).rows.getD i dRow0).vals c
          = (((spliceUnadjusted roll_spec df.rows).getD []).getD i dRow0).vals c) := by
  cases hs : spliceUnadjusted roll_spec df.rows with
  | none =>
    rw [additive_splice, hs] at hA
    simp at hA
  | some spliced =>
    cases ha : calcAdditiveAdjustment roll_spec df.rows adjust_by with
    | none =>
      rw [additive_splice, hs, ha] at hA
      simp at hA
    | some seriesA =>
      cases hm : calcMultiplicativeAdjustment roll_spec df.rows adjust_by with
      | none =>
        rw [multiplicative_splice, hs, hm] at hM
        simp at hM
      | some seriesM =>
        have hAe : additive_splice roll_spec df adjust_by adjustment_cols
            = some ⟨df.cols ++ ["additive_adjustment"],
              (cumFold (fun a b => a + b) 0 (attachAdjustment seriesA 0 spliced)).map
                (applyRow (adjustment_cols.getD [adjust_by]) "additive_adjustment"
                  (fun v c => v + c))⟩ := by
          unfold additive_splice
          rw [hs, ha]
        have hMe : multiplicative_splice roll_spec df adjust_by adjustment_cols
            = some ⟨df.cols ++ ["multiplicative_adjustment"],
              (cumFold (fun a b => a * b) 1 (attachAdjustment seriesM 1 spliced)).map
                (applyRow (adjustment_cols.getD [adjust_by]) "multiplicative_adjustment"
                  (fun v c => v * c))⟩ := by
          unfold multiplicative_splice
          rw [hs, hm]
        rw [hs] at huA huM
        rw [ha] at huA
        rw [hm] at huM
        simp only [Option.getD_some] at huA huM
        obtain ⟨hlenA, hptA⟩ := @pipeline_untouched _ _ 0 0
          (fun a b => a + b) (fun v c => v + c)
          (adjustment_cols.getD [adjust_by]) "additive_adjustment" huA
        obtain ⟨hlenM, hptM⟩ := @pipeline_untouched _ _ 1 1
          (fun a b => a * b) (fun v c => v * c)
          (adjustment_cols.getD [adjust_by]) "multiplicative_adjustment" huM
        rw [hAe, hMe]
        simp only [Option.getD_some]
        refine ⟨trivial, trivial, hlenA, hlenM, fun i hi c hc1 hc2 hc3 => ?_⟩
        exact ⟨(hptA i hi).2.2 c hc1 hc2, (hptM i hi).2.2 c hc1 hc3⟩

/-- Witness for C9: a one-segment schedule over a one-row frame; both
splicers succeed and the theorem's conclusions hold there. -/
theorem splice_untouched_columns_witness :
    ((additive_splice [⟨0, 1, 1⟩]
        ⟨["close"], [⟨1, 0, fun c => if c = "close" then 100 else 0⟩]⟩
        "close" none).getD ⟨[], []⟩).cols
      = (Frame.mk ["close"] [⟨1, 0, fun c => if c = "close" then 100 else 0⟩]).cols
          ++ ["additive_adjustment"] ∧
    ((multiplicative_splice [⟨0, 1, 1⟩]
        ⟨["close"], [⟨1, 0, fun c => if c = "close" then 100 else 0⟩]⟩
        "close" none).getD ⟨[], []⟩).cols
      = (Frame.mk ["close"] [⟨1, 0, fun c => if c = "close" then 100 else 0⟩]).cols
          ++ ["multiplicative_adjustment"] ∧
    ((additive_splice [⟨0, 1, 1⟩]
        ⟨["close"], [⟨1, 0, fun c => if c = "close" then 100 else 0⟩]⟩
        "close" none).getD ⟨[], []⟩).rows.length
      = ((spliceUnadjusted [⟨0, 1, 1⟩]
          [⟨1, 0, fun c => if c = "close" then 100 else 0⟩]).getD []).length ∧
    ((multiplicative_splice [⟨0, 1, 1⟩]
        ⟨["close"], [⟨1, 0, fun c => if c = "close" then 100 else 0⟩]⟩
        "close" none).getD ⟨[], []⟩).rows.length
      = ((spliceUnadjusted [⟨0, 1, 1⟩]
          [⟨1, 0, fun c => if c = "close" then 100 else 0⟩]).getD []).length ∧
    ∀ i, i < ((spliceUnadjusted [⟨0, 1, 1⟩]
        [⟨1, 0, fun c => if c = "close" then 100 else 0⟩]).getD []).length →
      ∀ c, c ∉ (Option.getD (none : Option (List String)) ["close"]) →
        c ≠ "additive_adjustment" → c ≠ "multiplicative_adjustment" →
        ((((additive_splice [⟨0, 1, 1⟩]
            ⟨["close"], [⟨1, 0, fun c => if c = "close" then 100 else 0⟩]⟩
            "close" none).getD ⟨[], []⟩).rows.getD i dRow0).vals c
          = (((spliceUnadjusted [⟨0, 1, 1⟩]
              [⟨1, 0, fun c => if c = "close" then 100 else 0⟩]).getD []).getD
                i dRow0).vals c ∧
         (((multiplicative_splice [⟨0, 1, 1⟩]
            ⟨["close"], [⟨1, 0, fun c => if c = "close" then 100 else 0⟩]⟩
            "close" none).getD ⟨[], []⟩).rows.getD i dRow0).vals c
          = (((spliceUnadjusted [⟨0, 1, 1⟩]
              [⟨1, 0, fun c => if c = "close" then 100 else 0⟩]).getD []).getD
                i dRow0).vals c) :=
  splice_untouched_columns [⟨0, 1, 1⟩]
    ⟨["close"], [⟨1, 0, fun c => if c = "close" then 100 else 0⟩]⟩
    "close" none rfl rfl (by decide) (by decide)

/-! ## Date arithmetic over an ordered schedule -/

theorem pieceOf_mem {df : List DRow} {spec : CSpec} {r : DRow} (h : r ∈ pieceOf df spec) :
    spec.d0 ≤ r.datetime ∧ r.datetime < spec.d1 ∧ r.instrument_id = spec.s := by
  unfold pieceOf groupOf at h
  have h1 := List.mem_filter.mp h
  have h2 := List.mem_filter.mp h1.1
  have hb := of_decide_eq_true h1.2
  exact ⟨hb.1, hb.2, of_decide_eq_true h2.2⟩

theorem chain'_getD {α : Type} {R : α → α → Prop} {l : List α} {d : α}
    (h : List.Chain' R l) :
    ∀ m, m + 1 < l.length → R (l.getD m d) (l.getD (m + 1) d) := by
  intro m hm
  have h1 : m < l.length := by omega
  rw [List.getD_eq_getElem l d h1, List.getD_eq_getElem l d hm]
  exact List.chain'_iff_get.mp h m (by omega)

theorem d1_le_d0_of_lt {rs : List CSpec}
    (hd01 : ∀ k, k < rs.length → (rs.getD k cSpec0).d0 < (rs.getD k cSpec0).d1)
    (hch : ∀ m, m + 1 < rs.length →
      (rs.getD m cSpec0).d1 ≤ (rs.getD (m + 1) cSpec0).d0) :
    ∀ j k, j < k → k < rs.length → (rs.getD j cSpec0).d1 ≤ (rs.getD k cSpec0).d0 := by
  intro j k
  induction k with
  | zero => intro hjk _; omega
  | succ m ihm =>
    intro hjk hk
    rcases Nat.lt_succ_iff_lt_or_eq.mp hjk with h | h
    · have h1 := ihm h (by omega)
      have h2 := hd01 m (by omega)
      have h3 := hch m hk
      omega
    · subst h
      exact hch j hk

theorem d0_lt_d0_of_lt {rs : List CSpec}
    (hd01 : ∀ k, k < rs.length → (rs.getD k cSpec0).d0 < (rs.getD k cSpec0).d1)
    (hch : ∀ m, m + 1 < rs.length →
      (rs.getD m cSpec0).d1 ≤ (rs.getD (m + 1) cSpec0).d0) :
    ∀ j k, j < k → k < rs.length → (rs.getD j cSpec0).d0 < (rs.getD k cSpec0).d0 := by
  intro j k hjk hk
  have h1 := hd01 j (by omega)
  have h2 := d1_le_d0_of_lt hd01 hch j k hjk hk
  omega

theorem range_filter_eq_nil {p : ℕ → Bool} {n : ℕ}
    (h : ∀ i, i < n → p i = false) : (List.range n).filter p = [] := by
  refine List.filter_eq_nil_iff.mpr (fun i hi => ?_)
  rw [h i (List.mem_range.mp hi)]
  simp

theorem range_filter_eq_singleton {p : ℕ → Bool} {n j : ℕ} (hj : j < n)
    (hpj : p j = true) (huniq : ∀ i, i < n → p i = true → i = j) :
    (List.range n).filter p = [j] := by
  induction n with
  | zero => omega
  | succ m ihm =>
    rw [List.range_succ, List.filter_append]
    rcases Nat.lt_succ_iff_lt_or_eq.mp hj with h | h
    · rw [ihm h (fun i hi hpi => huniq i (by omega) hpi)]
      have hpm : p m = false := by
        cases hpm : p m with
        | false => rfl
        | true => exact absurd (huniq m (by omega) hpm) (by omega)
      simp [hpm]
    · subst h
      rw [range_filter_eq_nil (fun i hi => ?_), List.filter_singleton]
      · simp [hpj]
      · cases hpi : p i with
        | false => rfl
        | true => exact absurd (huniq i (by omega) hpi) (by omega)

theorem chain'_lt_head : ∀ {t : List DRow} {r0 : DRow},
    List.Chain' (fun r s : DRow => r.datetime < s.datetime) (r0 :: t) →
    ∀ r ∈ t, r0.datetime < r.datetime := by
  intro t
  induction t with
  | nil => intro r0 _ r hr; simp at hr
  | cons r1 t ih =>
    intro r0 h r hr
    have h01 : r0.datetime < r1.datetime := (List.chain'_cons.mp h).1
    have ht := (List.chain'_cons.mp h).2
    rcases List.mem_cons.mp hr with h2 | h2
    · subst h2; exact h01
    · exact lt_trans h01 (ih ht r h2)

theorem sorted_head_lb {l : List DRow} {d : ℤ}
    (hs : List.Chain' (fun r s : DRow => r.datetime < s.datetime) l)
    (hmem : ∃ r ∈ l, r.datetime = d)
    (hlb : ∀ r ∈ l, d ≤ r.datetime) :
    ∃ r0 t, l = r0 :: t ∧ r0.datetime = d ∧ ∀ r ∈ t, d < r.datetime := by
  cases l with
  | nil => obtain ⟨r, hr, _⟩ := hmem; simp at hr
  | cons r0 t =>
    have hpair : ∀ r ∈ t, r0.datetime < r.datetime := chain'_lt_head hs
    have hr0 : r0.datetime = d := by
      obtain ⟨rm, hrm, hrmd⟩ := hmem
      rcases List.mem_cons.mp hrm with h | h
      · rw [← h]; exact hrmd
      · have h1 := hpair rm h
        have h2 := hlb r0 (List.mem_cons_self r0 t)
        omega
    exact ⟨r0, t, rfl, hr0, fun r hr => hr0 ▸ hpair r hr⟩

theorem cumFold_add_append {acc : ℚ} {xs ys : List (DRow × ℚ)} :
    cumFold (fun a b => a + b) acc (xs ++ ys)
      = cumFold (fun a b => a + b) acc xs
        ++ cumFold (fun a b => a + b) (acc + (xs.map Prod.snd).sum) ys := by
  induction xs generalizing acc with
  | nil => simp [cumFold]
  | cons p rest ih =>
    rw [List.cons_append]
    simp only [cumFold, ih, List.map_cons, List.sum_cons]
    rw [show acc + p.2 + (rest.map Prod.snd).sum
      = acc + (p.2 + (rest.map Prod.snd).sum) from by ring, List.cons_append]

theorem cumFold_add_zeros {acc : ℚ} {xs : List (DRow × ℚ)}
    (h : ∀ p ∈ xs, p.2 = 0) :
    cumFold (fun a b => a + b) acc xs = xs.map (fun p => (p.1, acc)) := by
  induction xs with
  | nil => rfl
  | cons p rest ih =>
    have hp := h p (List.mem_cons_self p rest)
    simp only [cumFold, hp, add_zero, List.map_cons]
    rw [ih (fun q hq => h q (List.mem_cons_of_mem p hq))]

theorem cumAdjAt_succ {df : List DRow} {ab : String} {rs : List CSpec} {k : ℕ} :
    cumAdjAt df ab rs (k + 1) = cumAdjAt df ab rs k
      + (transitionAdj df ab (fun a b => a - b)
          (rs.getD k cSpec0) (rs.getD (k + 1) cSpec0)).getD 0 := by
  unfold cumAdjAt
  rw [List.range_succ, List.map_append, List.sum_append]
  simp

theorem flatMap_eq_map_of_singleton {α β : Type} {g : α → List β} {h : α → β} :
    ∀ {l : List α}, (∀ x ∈ l, g x = [h x]) → l.flatMap g = l.map h := by
  intro l
  induction l with
  | nil => intro _; rfl
  | cons x rest ih =>
    intro hx
    rw [List.flatMap_cons, hx x (List.mem_cons_self x rest),
      ih (fun y hy => hx y (List.mem_cons_of_mem x hy)), List.map_cons]
    rfl

theorem series_filter_eq {df : List DRow} {ab : String} {rs : List CSpec}
    (hd01 : ∀ m, m < rs.length → (rs.getD m cSpec0).d0 < (rs.getD m cSpec0).d1)
    (hch : ∀ m, m + 1 < rs.length →
      (rs.getD m cSpec0).d1 ≤ (rs.getD (m + 1) cSpec0).d0)
    {k : ℕ} (hk : k < rs.length) {r : DRow} (hr : r ∈ pieceOf df (rs.getD k cSpec0)) :
    ((List.range (rs.length - 1)).map (fun i =>
        ((rs.getD (i + 1) cSpec0).d0,
          (transitionAdj df ab (fun a b => a - b) (rs.getD i cSpec0)
            (rs.getD (i + 1) cSpec0)).getD 0))).filter (fun a => a.1 = r.datetime)
      = if 1 ≤ k ∧ r.datetime = (rs.getD k cSpec0).d0
        then [((rs.getD k cSpec0).d0,
          (transitionAdj df ab (fun a b => a - b) (rs.getD (k - 1) cSpec0)
            (rs.getD k cSpec0)).getD 0)]
        else [] := by
  obtain ⟨hlb, hub, _⟩ := pieceOf_mem hr
  have hne_ne : ∀ i, i < rs.length - 1 → i + 1 ≠ k →
      ¬((rs.getD (i + 1) cSpec0).d0 = r.datetime) := by
    intro i hi hik
    rcases Nat.lt_or_ge (i + 1) k with h | h
    · have := d0_lt_d0_of_lt hd01 hch (i + 1) k h hk
      omega
    · have hik2 : k < i + 1 := by omega
      have := d1_le_d0_of_lt hd01 hch k (i + 1) hik2 (by omega)
      omega
  rw [List.filter_map]
  by_cases hcond : 1 ≤ k ∧ r.datetime = (rs.getD k cSpec0).d0
  · rw [if_pos hcond]
    have hk1 : k - 1 + 1 = k := by omega
    have hsingle : (List.range (rs.length - 1)).filter
        ((fun a : ℤ × ℚ => decide (a.1 = r.datetime)) ∘ (fun i =>
          ((rs.getD (i + 1) cSpec0).d0,
            (transitionAdj df ab (fun a b => a - b) (rs.getD i cSpec0)
              (rs.getD (i + 1) cSpec0)).getD 0))) = [k - 1] := by
      refine range_filter_eq_singleton (by omega) ?_ ?_
      · simp only [Function.comp_apply, hk1, decide_eq_true_eq]
        exact hcond.2.symm
      · intro i hi hpi
        simp only [Function.comp_apply, decide_eq_true_eq] at hpi
        by_contra hik
        exact hne_ne i hi (by omega) hpi
    rw [hsingle, List.map_cons, List.map_nil, hk1]
  · rw [if_neg hcond]
    rw [range_filter_eq_nil, List.map_nil]
    intro i hi
    simp only [Function.comp_apply, decide_eq_false_iff_not]
    intro hd0
    rcases eq_or_ne (i + 1) k with h | h
    · subst h
      exact hcond ⟨by omega, hd0.symm⟩
    · exact hne_ne i hi h hd0

theorem attach_piece_eq {df : List DRow} {ab : String} {rs : List CSpec}
    (hd01 : ∀ m, m < rs.length → (rs.getD m cSpec0).d0 < (rs.getD m cSpec0).d1)
    (hch : ∀ m, m + 1 < rs.length →
      (rs.getD m cSpec0).d1 ≤ (rs.getD (m + 1) cSpec0).d0)
    {k : ℕ} (hk : k < rs.length) :
    attachAdjustment ((List.range (rs.length - 1)).map (fun i =>
        ((rs.getD (i + 1) cSpec0).d0,
          (transitionAdj df ab (fun a b => a - b) (rs.getD i cSpec0)
            (rs.getD (i + 1) cSpec0)).getD 0))) 0
        (pieceOf df (rs.getD k cSpec0))
      = (pieceOf df (rs.getD k cSpec0)).map (fun r =>
          (r, if 1 ≤ k ∧ r.datetime = (rs.getD k cSpec0).d0
              then (transitionAdj df ab (fun a b => a - b) (rs.getD (k - 1) cSpec0)
                (rs.getD k cSpec0)).getD 0
              else 0)) := by
  unfold attachAdjustment
  refine flatMap_eq_map_of_singleton (fun r hr => ?_)
  rw [series_filter_eq hd01 hch hk hr]
  by_cases hcond : 1 ≤ k ∧ r.datetime = (rs.getD k cSpec0).d0
  · rw [if_pos hcond, if_pos hcond]
    rfl
  · rw [if_neg hcond, if_neg hcond]

theorem cumFold_piece {df : List DRow} {ab : String} {rs : List CSpec}
    {series : List (ℤ × ℚ)}
    (hseries : series = (List.range (rs.length - 1)).map (fun i =>
      ((rs.getD (i + 1) cSpec0).d0,
        (transitionAdj df ab (fun a b => a - b) (rs.getD i cSpec0)
          (rs.getD (i + 1) cSpec0)).getD 0)))
    (hd01 : ∀ m, m < rs.length → (rs.getD m cSpec0).d0 < (rs.getD m cSpec0).d1)
    (hch : ∀ m, m + 1 < rs.length →
      (rs.getD m cSpec0).d1 ≤ (rs.getD (m + 1) cSpec0).d0)
    {k : ℕ} (hk : k < rs.length)
    (hsorted : List.Chain' (fun r s : DRow => r.datetime < s.datetime)
      (pieceOf df (rs.getD k cSpec0)))
    (halign : 1 ≤ k → ∃ r ∈ pieceOf df (rs.getD k cSpec0),
      r.datetime = (rs.getD k cSpec0).d0) :
    cumFold (fun a b => a + b) (cumAdjAt df ab rs (k - 1))
        (attachAdjustment series 0 (pieceOf df (rs.getD k cSpec0)))
      = (pieceOf df (rs.getD k cSpec0)).map (fun r => (r, cumAdjAt df ab rs k)) ∧
    cumAdjAt df ab rs (k - 1)
        + ((attachAdjustment series 0 (pieceOf df (rs.getD k cSpec0))).map Prod.snd).sum
      = cumAdjAt df ab rs k := by
  subst hseries
  rw [attach_piece_eq hd01 hch hk]
  rcases Nat.eq_zero_or_pos k with hk0 | hk1
  · subst hk0
    have hz : (pieceOf df (rs.getD 0 cSpec0)).map (fun r =>
        (r, if 1 ≤ 0 ∧ r.datetime = (rs.getD 0 cSpec0).d0
            then (transitionAdj df ab (fun a b => a - b) (rs.getD (0 - 1) cSpec0)
              (rs.getD 0 cSpec0)).getD 0
            else 0))
        = (pieceOf df (rs.getD 0 cSpec0)).map (fun r => (r, (0 : ℚ))) := by
      refine List.map_congr_left (fun r _ => ?_)
      rw [if_neg (by omega)]
    rw [hz, cumFold_add_zeros (fun p hp => ?_), List.map_map]
    · constructor
      · rfl
      · rw [List.map_map]
        have hzero : ((pieceOf df (rs.getD 0 cSpec0)).map
            (Prod.snd ∘ fun r => (r, (0 : ℚ)))).sum = 0 := by
          rw [show (Prod.snd ∘ fun r : DRow => (r, (0 : ℚ))) = fun _ => (0 : ℚ) from rfl]
          simp
        rw [hzero, add_zero]
    · obtain ⟨r, _, hr2⟩ := List.mem_map.mp hp
      rw [← hr2]
  · have hk1' : 1 ≤ k := hk1
    have hmem := halign hk1'
    have hlb : ∀ r ∈ pieceOf df (rs.getD k cSpec0),
        (rs.getD k cSpec0).d0 ≤ r.datetime := fun r hr => (pieceOf_mem hr).1
    obtain ⟨r0, t, hpiece, hr0, ht⟩ := sorted_head_lb hsorted hmem hlb
    have hks : k - 1 + 1 = k := by omega
    have hcum : cumAdjAt df ab rs (k - 1)
        + (transitionAdj df ab (fun a b => a - b) (rs.getD (k - 1) cSpec0)
          (rs.getD k cSpec0)).getD 0 = cumAdjAt df ab rs k := by
      have := @cumAdjAt_succ df ab rs (k - 1)
      rw [hks] at this
      rw [← this]
    rw [hpiece, List.map_cons]
    rw [if_pos ⟨hk1', hr0⟩]
    have hztail : t.map (fun r =>
        (r, if 1 ≤ k ∧ r.datetime = (rs.getD k cSpec0).d0
            then (transitionAdj df ab (fun a b => a - b) (rs.getD (k - 1) cSpec0)
              (rs.getD k cSpec0)).getD 0
            else 0))
        = t.map (fun r => (r, (0 : ℚ))) := by
      refine List.map_congr_left (fun r hr => ?_)
      rw [if_neg]
      intro hcon
      have := ht r hr
      omega
    rw [hztail]
    simp only [cumFold, List.map_cons, List.sum_cons]
    rw [cumFold_add_zeros (fun p hp => ?_)]
    · constructor
      · rw [hcum, List.map_map]
        rfl
      · rw [List.map_map]
        have hzero : (t.map (Prod.snd ∘ fun r => (r, (0 : ℚ)))).sum = 0 := by
          rw [show (Prod.snd ∘ fun r : DRow => (r, (0 : ℚ))) = fun _ => (0 : ℚ) from rfl]
          simp
        rw [hzero, add_zero, hcum]
    · obtain ⟨r, _, hr2⟩ := List.mem_map.mp hp
      rw [← hr2]

theorem attachAdjustment_append {series : List (ℤ × ℚ)} {dflt : ℚ} {a b : List DRow} :
    attachAdjustment series dflt (a ++ b)
      = attachAdjustment series dflt a ++ attachAdjustment series dflt b := by
  unfold attachAdjustment
  exact List.flatMap_append _ _ _

theorem flatMap_eq_flatMap_range {α β : Type} {g : α → List β} {d : α} :
    ∀ {l : List α}, l.flatMap g = (List.range l.length).flatMap (fun k => g (l.getD k d)) := by
  intro l
  induction l with
  | nil => rfl
  | cons x t ih =>
    rw [List.flatMap_cons, List.length_cons, List.range_succ_eq_map, List.flatMap_cons,
      List.flatMap_map]
    congr 1

theorem cumFold_suffix {df : List DRow} {ab : String} {rs : List CSpec}
    {series : List (ℤ × ℚ)}
    (hseries : series = (List.range (rs.length - 1)).map (fun i =>
      ((rs.getD (i + 1) cSpec0).d0,
        (transitionAdj df ab (fun a b => a - b) (rs.getD i cSpec0)
          (rs.getD (i + 1) cSpec0)).getD 0)))
    (hd01 : ∀ m, m < rs.length → (rs.getD m cSpec0).d0 < (rs.getD m cSpec0).d1)
    (hch : ∀ m, m + 1 < rs.length →
      (rs.getD m cSpec0).d1 ≤ (rs.getD (m + 1) cSpec0).d0)
    (hsorted : ∀ k, k < rs.length →
      List.Chain' (fun r s : DRow => r.datetime < s.datetime)
        (pieceOf df (rs.getD k cSpec0)))
    (halign : ∀ k, k < rs.length → 1 ≤ k →
      ∃ r ∈ pieceOf df (rs.getD k cSpec0), r.datetime = (rs.getD k cSpec0).d0) :
    ∀ n m, m + n = rs.length →
      cumFold (fun a b => a + b) (cumAdjAt df ab rs (m - 1))
          (attachAdjustment series 0 ((List.range' m n).flatMap
            (fun k => pieceOf df (rs.getD k cSpec0))))
        = (List.range' m n).flatMap (fun k =>
            (pieceOf df (rs.getD k cSpec0)).map
              (fun r => (r, cumAdjAt df ab rs k))) := by
  intro n
  induction n with
  | zero => intro m _; rfl
  | succ n ihn =>
    intro m hm
    rw [List.range'_succ, List.flatMap_cons, attachAdjustment_append, cumFold_add_append]
    have hk : m < rs.length := by omega
    obtain ⟨h1, h2⟩ := cumFold_piece hseries hd01 hch hk (hsorted m hk) (halign m hk)
    rw [h1, h2]
    have ihm := ihn (m + 1) (by omega)
    rw [show m + 1 - 1 = m from rfl] at ihm
    rw [ihm, List.flatMap_cons]

theorem getD_mem_of_lt {α : Type} {l : List α} {n : ℕ} {d : α} (h : n < l.length) :
    l.getD n d ∈ l := by
  rw [List.getD_eq_getElem l d h]
  exact List.getElem_mem h

/-! ## Claim C3: the cumulative additive adjustment -/

theorem additive_splice_rows_eq
    (roll_spec : List CSpec) (df : Frame) (adjust_by : String)
    (adjustment_cols : Option (List String))
    (hsome : (additive_splice roll_spec df adjust_by adjustment_cols).isSome = true)
    (hch : List.Chain' (fun s t : CSpec => s.d1 ≤ t.d0) roll_spec)
    (hsorted : ∀ spec ∈ roll_spec,
      List.Chain' (fun r s : DRow => r.datetime < s.datetime) (pieceOf df.rows spec))
    (halign : ∀ k, k + 1 < roll_spec.length →
      ∃ r ∈ pieceOf df.rows (roll_spec.getD (k + 1) cSpec0),
        r.datetime = (roll_spec.getD (k + 1) cSpec0).d0) :
    additive_splice roll_spec df adjust_by adjustment_cols
      = some ⟨df.cols ++ ["additive_adjustment"],
        (List.range roll_spec.length).flatMap (fun k =>
          (pieceOf df.rows (roll_spec.getD k cSpec0)).map (fun r =>
            applyRow (adjustment_cols.getD [adjust_by]) "additive_adjustment"
              (fun v c => v + c) (r, cumAdjAt df.rows adjust_by roll_spec k)))⟩ := by
  cases hs : spliceUnadjusted roll_spec df.rows with
  | none => rw [additive_splice, hs] at hsome; simp at hsome
  | some spliced =>
    cases ha : calcAdditiveAdjustment roll_spec df.rows adjust_by with
    | none => rw [additive_splice, hs, ha] at hsome; simp at hsome
    | some series =>
      have hAe : additive_splice roll_spec df adjust_by adjustment_cols
          = some ⟨df.cols ++ ["additive_adjustment"],
            (cumFold (fun a b => a + b) 0 (attachAdjustment series 0 spliced)).map
              (applyRow (adjustment_cols.getD [adjust_by]) "additive_adjustment"
                (fun v c => v + c))⟩ := by
        unfold additive_splice
        rw [hs, ha]
      rw [hAe]
      have hsp := spliceUnadjusted_eq hs
      unfold calcAdditiveAdjustment at ha
      have hser := calcAdjGo_none_eq_indexed ha
      have hne : ∀ k, k < roll_spec.length →
          pieceOf df.rows (roll_spec.getD k cSpec0) ≠ [] := by
        intro k hk
        have hmem : roll_spec.getD k cSpec0 ∈ roll_spec := getD_mem_of_lt hk
        have hlast := calcAdjGo_piece_isSome ha _ hmem
        intro hcon
        rw [hcon] at hlast
        simp at hlast
      have hd01 : ∀ m, m < roll_spec.length →
          (roll_spec.getD m cSpec0).d0 < (roll_spec.getD m cSpec0).d1 := by
        intro m hm
        obtain ⟨r, hr⟩ := List.exists_mem_of_ne_nil _ (hne m hm)
        obtain ⟨hb1, hb2, _⟩ := pieceOf_mem hr
        omega
      have hchD := @chain'_getD _ _ _ cSpec0 hch
      have hsortedD : ∀ k, k < roll_spec.length →
          List.Chain' (fun r s : DRow => r.datetime < s.datetime)
            (pieceOf df.rows (roll_spec.getD k cSpec0)) :=
        fun k hk => hsorted _ (getD_mem_of_lt hk)
      have halignD : ∀ k, k < roll_spec.length → 1 ≤ k →
          ∃ r ∈ pieceOf df.rows (roll_spec.getD k cSpec0),
            r.datetime = (roll_spec.getD k cSpec0).d0 := by
        intro k hk hk1
        have h := halign (k - 1) (by omega)
        rw [show k - 1 + 1 = k from by omega] at h
        exact h
      have key := cumFold_suffix hser hd01 hchD hsortedD halignD
        roll_spec.length 0 (by omega)
      rw [show (0 : ℕ) - 1 = 0 from rfl] at key
      rw [show cumAdjAt df.rows adjust_by roll_spec 0 = 0 from by simp [cumAdjAt]] at key
      have hsp2 : spliced = (List.range' 0 roll_spec.length).flatMap
          (fun k => pieceOf df.rows (roll_spec.getD k cSpec0)) := by
        rw [hsp, @flatMap_eq_flatMap_range _ _ _ cSpec0 _, List.range_eq_range']
      rw [hsp2, key, List.range_eq_range']
      rw [List.map_flatMap]
      simp only [List.map_map]
      rfl

/-- C3 (amended).  In `additive_splice`, each per-transition adjustment
equals `A_value(d) - B_value(d)` (`transitionAdj`), with `A` segment
`i`'s instrument, `d` the last date present in segment `i`'s selected
rows, and the `B` value looked up in segment `i+1`'s instrument's full
unfiltered series at `d`.  Provided the call succeeds, the schedule is
ordered (`d1 ≤` next `d0`), each segment's selected rows are strictly
increasing in time, and every non-first segment's rows include an
observation exactly at its start date `d0`, the output rows are the
spliced segments in order, each row of segment `k` carrying the running
sum `cumAdjAt k` of the first `k` per-transition adjustments as its
cumulative adjustment — so it is `0` on the whole first segment and
constant across each segment.  (Without the `d0`-alignment precondition
the left merge drops the transition, see the counterexample.) -/
theorem additive_splice_cumulative_running_sum
    (roll_spec : List CSpec) (df : Frame) (adjust_by : String)
    (adjustment_cols : Option (List String))
    (hsome : (additive_splice roll_spec df adjust_by adjustment_cols).isSome = true)
    (hch : List.Chain' (fun s t : CSpec => s.d1 ≤ t.d0) roll_spec)
    (hsorted : ∀ spec ∈ roll_spec,
      List.Chain' (fun r s : DRow => r.datetime < s.datetime) (pieceOf df.rows spec))
    (halign : ∀ k, k + 1 < roll_spec.length →
      ∃ r ∈ pieceOf df.rows (roll_spec.getD (k + 1) cSpec0),
        r.datetime = (roll_spec.getD (k + 1) cSpec0).d0) :
    additive_splice roll_spec df adjust_by adjustment_cols
      = some ⟨df.cols ++ ["additive_adjustment"],
        (List.range roll_spec.length).flatMap (fun k =>
          (pieceOf df.rows (roll_spec.getD k cSpec0)).map (fun r =>
            applyRow (adjustment_cols.getD [adjust_by]) "additive_adjustment"
              (fun v c => v + c) (r, cumAdjAt df.rows adjust_by roll_spec k)))⟩ ∧
    cumAdjAt df.rows adjust_by roll_spec 0 = 0 :=
  ⟨additive_splice_rows_eq roll_spec df adjust_by adjustment_cols hsome hch hsorted halign,
    by simp [cumAdjAt]⟩

/-- Witness for C3: a two-segment schedule whose second segment starts
exactly on its `d0` (day 2), so the transition adjustment lands and every
hypothesis is satisfied. -/
theorem additive_splice_cumulative_running_sum_witness :
    additive_splice [⟨0, 2, 1⟩, ⟨2, 4, 2⟩]
        ⟨["close"], [⟨1, 0, fun c => if c = "close" then 10 else 0⟩,
          ⟨1, 1, fun c => if c = "close" then 11 else 0⟩,
          ⟨2, 1, fun c => if c = "close" then 8 else 0⟩,
          ⟨2, 2, fun c => if c = "close" then 9 else 0⟩,
          ⟨2, 3, fun c => if c = "close" then 12 else 0⟩]⟩
        "close" none
      = some ⟨(Frame.mk ["close"] [⟨1, 0, fun c => if c = "close" then 10 else 0⟩,
          ⟨1, 1, fun c => if c = "close" then 11 else 0⟩,
          ⟨2, 1, fun c => if c = "close" then 8 else 0⟩,
          ⟨2, 2, fun c => if c = "close" then 9 else 0⟩,
          ⟨2, 3, fun c => if c = "close" then 12 else 0⟩]).cols ++ ["additive_adjustment"],
        (List.range ([(⟨0, 2, 1⟩ : CSpec), ⟨2, 4, 2⟩] : List CSpec).length).flatMap (fun k =>
          (pieceOf [⟨1, 0, fun c => if c = "close" then 10 else 0⟩,
              ⟨1, 1, fun c => if c = "close" then 11 else 0⟩,
              ⟨2, 1, fun c => if c = "close" then 8 else 0⟩,
              ⟨2, 2, fun c => if c = "close" then 9 else 0⟩,
              ⟨2, 3, fun c => if c = "close" then 12 else 0⟩]
            (([(⟨0, 2, 1⟩ : CSpec), ⟨2, 4, 2⟩] : List CSpec).getD k cSpec0)).map (fun r =>
            applyRow ((none : Option (List String)).getD ["close"]) "additive_adjustment"
              (fun v c => v + c)
              (r, cumAdjAt [⟨1, 0, fun c => if c = "close" then 10 else 0⟩,
                ⟨1, 1, fun c => if c = "close" then 11 else 0⟩,
                ⟨2, 1, fun c => if c = "close" then 8 else 0⟩,
                ⟨2, 2, fun c => if c = "close" then 9 else 0⟩,
                ⟨2, 3, fun c => if c = "close" then 12 else 0⟩] "close"
                [⟨0, 2, 1⟩, ⟨2, 4, 2⟩] k)))⟩ ∧
    cumAdjAt [⟨1, 0, fun c => if c = "close" then 10 else 0⟩,
      ⟨1, 1, fun c => if c = "close" then 11 else 0⟩,
      ⟨2, 1, fun c => if c = "close" then 8 else 0⟩,
      ⟨2, 2, fun c => if c = "close" then 9 else 0⟩,
      ⟨2, 3, fun c => if c = "close" then 12 else 0⟩] "close"
      [⟨0, 2, 1⟩, ⟨2, 4, 2⟩] 0 = 0 :=
  additive_splice_cumulative_running_sum [⟨0, 2, 1⟩, ⟨2, 4, 2⟩]
    ⟨["close"], [⟨1, 0, fun c => if c = "close" then 10 else 0⟩,
      ⟨1, 1, fun c => if c = "close" then 11 else 0⟩,
      ⟨2, 1, fun c => if c = "close" then 8 else 0⟩,
      ⟨2, 2, fun c => if c = "close" then 9 else 0⟩,
      ⟨2, 3, fun c => if c = "close" then 12 else 0⟩]⟩
    "close" none rfl (by simp)
    (by
      intro spec hspec
      fin_cases hspec <;> simp [pieceOf, groupOf, List.filter])
    (by
      intro k hk
      simp only [List.length_cons, List.length_nil] at hk
      have hk0 : k = 0 := by omega
      subst hk0
      decide)

/-- Counterexample to C3 as frozen: instrument 1 holds `[0, 2)` with rows
on days 0, 1 (close 100, 102); instrument 2 holds `[2, 5)` but has rows
only on days 1, 3, 4 (close 99, 107, 103) — none on day 2, the segment's
`d0`.  The transition adjustment is `102 - 99 = 3` and the running sum
after the transition is `3`, yet the call succeeds and every output row's
cumulative adjustment is `0`: the left merge found no row at day 2 and
dropped the adjustment, so the cumulative column is not the running sum
of the per-transition adjustments. -/
theorem additive_splice_dropped_adjustment_counterexample :
    (additive_splice [⟨0, 2, 1⟩, ⟨2, 5, 2⟩]
        ⟨["close"], [⟨1, 0, fun c => if c = "close" then 100 else 0⟩,
          ⟨1, 1, fun c => if c = "close" then 102 else 0⟩,
          ⟨2, 1, fun c => if c = "close" then 99 else 0⟩,
          ⟨2, 3, fun c => if c = "close" then 107 else 0⟩,
          ⟨2, 4, fun c => if c = "close" then 103 else 0⟩]⟩
        "close" none).map (fun F => F.rows.map (fun r => r.vals "additive_adjustment"))
      = some [0, 0, 0, 0] ∧
    cumAdjAt [⟨1, 0, fun c => if c = "close" then 100 else 0⟩,
        ⟨1, 1, fun c => if c = "close" then 102 else 0⟩,
        ⟨2, 1, fun c => if c = "close" then 99 else 0⟩,
        ⟨2, 3, fun c => if c = "close" then 107 else 0⟩,
        ⟨2, 4, fun c => if c = "close" then 103 else 0⟩] "close"
      [⟨0, 2, 1⟩, ⟨2, 5, 2⟩] 1 = 3 ∧
    ¬((0 : ℚ) = 3) := by
  refine ⟨?_, ?_, by norm_num⟩
  · norm_num [additive_splice, spliceUnadjusted, calcAdditiveAdjustment, calcAdjGo,
      optionMapList, groupOf, pieceOf, attachAdjustment, cumFold, applyRow, List.filter]
  · rw [show (1 : ℕ) = 0 + 1 from rfl, cumAdjAt_succ]
    norm_num [cumAdjAt, transitionAdj, groupOf, pieceOf, List.filter]

theorem flatten_getD_offset {α : Type} {d : α} :
    ∀ (Ls : List (List α)) (k : ℕ), k < Ls.length → Ls.getD k [] ≠ [] →
      Ls.flatten.getD (((Ls.take k).map List.length).sum) d
        = (Ls.getD k []).getD 0 d := by
  intro Ls
  induction Ls with
  | nil => intro k hk _; simp at hk
  | cons L rest ih =>
    intro k hk hne
    cases k with
    | zero =>
      simp only [List.getD_cons_zero] at hne ⊢
      simp only [List.take_zero, List.map_nil, List.sum_nil, List.flatten_cons]
      cases L with
      | nil => exact absurd rfl hne
      | cons x t => rfl
    | succ j =>
      have hj : j < rest.length := by simpa [Nat.succ_lt_succ_iff] using hk
      have hne2 : rest.getD j [] ≠ [] := by simpa using hne
      have hgoal := ih j hj hne2
      simp only [List.take_succ_cons, List.map_cons, List.sum_cons, List.flatten_cons,
        List.getD_cons_succ]
      rw [List.getD_append_right _ _ _ _ (by omega), Nat.add_sub_cancel_left]
      exact hgoal

theorem rows_getD_segOffset {df : List DRow} {ab : String} {rs : List CSpec}
    {acols : List String} {k : ℕ} (hk : k < rs.length)
    (hne : pieceOf df (rs.getD k cSpec0) ≠ []) :
    (((List.range rs.length).flatMap (fun j =>
        (pieceOf df (rs.getD j cSpec0)).map (fun r =>
          applyRow acols "additive_adjustment" (fun v c => v + c)
            (r, cumAdjAt df ab rs j)))).getD (segOffset df rs k) dRow0).vals
      "additive_adjustment" = cumAdjAt df ab rs k := by
  rw [List.flatMap_def]
  have hlenk : k < ((List.range rs.length).map (fun j =>
      (pieceOf df (rs.getD j cSpec0)).map (fun r =>
        applyRow acols "additive_adjustment" (fun v c => v + c)
          (r, cumAdjAt df ab rs j)))).length := by
    simpa using hk
  have hgetk : ((List.range rs.length).map (fun j =>
      (pieceOf df (rs.getD j cSpec0)).map (fun r =>
        applyRow acols "additive_adjustment" (fun v c => v + c)
          (r, cumAdjAt df ab rs j)))).getD k []
      = (pieceOf df (rs.getD k cSpec0)).map (fun r =>
          applyRow acols "additive_adjustment" (fun v c => v + c)
            (r, cumAdjAt df ab rs k)) := by
    rw [List.getD_eq_getElem _ _ hlenk, List.getElem_map, List.getElem_range]
  have hoff : ((((List.range rs.length).map (fun j =>
      (pieceOf df (rs.getD j cSpec0)).map (fun r =>
        applyRow acols "additive_adjustment" (fun v c => v + c)
          (r, cumAdjAt df ab rs j)))).take k).map List.length).sum
      = segOffset df rs k := by
    rw [← List.map_take, List.take_range, List.map_map]
    unfold segOffset
    rw [show min k rs.length = k from by omega]
    refine congrArg List.sum (List.map_congr_left (fun j _ => ?_))
    simp
  have hmain := @flatten_getD_offset _ dRow0 _ k hlenk
    (by rw [hgetk]; intro hcon; exact hne (List.map_eq_nil_iff.mp hcon))
  rw [hoff] at hmain
  rw [hmain, hgetk]
  have hne0 : 0 < (pieceOf df (rs.getD k cSpec0)).length := by
    cases hp : pieceOf df (rs.getD k cSpec0) with
    | nil => exact absurd hp hne
    | cons x t => simp
  rw [List.getD_eq_getElem _ _ (by simpa using hne0), List.getElem_map]
  simp [applyRow]

/-! ## Claim C4: the jump is exactly absorbed at each transition -/

/-- C4 (amended).  At every roll transition of `additive_splice` — under
the same preconditions as C3 (successful call, ordered schedule, per-
segment rows strictly increasing in time, and every non-first segment
containing an observation exactly at its `d0`, without which the merge
drops the adjustment) — the jump is exactly absorbed: with `A` the
outgoing instrument (its last selected row `lastRow` at boundary date
`d`), `B` the incoming instrument (its looked-up row `brow` at `d` in the
full series), and the cumulative adjustment in force read off the output
rows of the segments after and before the transition,
`raw(B, d) + cumulative(after) = raw(A, d) + cumulative(before)`. -/
theorem additive_splice_jump_absorbed
    (roll_spec : List CSpec) (df : Frame) (adjust_by : String)
    (adjustment_cols : Option (List String))
    (hsome : (additive_splice roll_spec df adjust_by adjustment_cols).isSome = true)
    (hch : List.Chain' (fun s t : CSpec => s.d1 ≤ t.d0) roll_spec)
    (hsorted : ∀ spec ∈ roll_spec,
      List.Chain' (fun r s : DRow => r.datetime < s.datetime) (pieceOf df.rows spec))
    (halign : ∀ k, k + 1 < roll_spec.length →
      ∃ r ∈ pieceOf df.rows (roll_spec.getD (k + 1) cSpec0),
        r.datetime = (roll_spec.getD (k + 1) cSpec0).d0) :
    ∀ i, i + 1 < roll_spec.length →
      ∃ lastRow brow,
        (pieceOf df.rows (roll_spec.getD i cSpec0)).getLast? = some lastRow ∧
        ((groupOf df.rows (roll_spec.getD (i + 1) cSpec0).s).filter
          (fun r => r.datetime = lastRow.datetime)).getLast? = some brow ∧
        brow.vals adjust_by
            + (((additive_splice roll_spec df adjust_by adjustment_cols).getD
                ⟨[], []⟩).rows.getD (segOffset df.rows roll_spec (i + 1)) dRow0).vals
              "additive_adjustment"
          = lastRow.vals adjust_by
            + (((additive_splice roll_spec df adjust_by adjustment_cols).getD
                ⟨[], []⟩).rows.getD (segOffset df.rows roll_spec i) dRow0).vals
              "additive_adjustment" := by
  intro i hi
  have hrows := additive_splice_rows_eq roll_spec df adjust_by adjustment_cols
    hsome hch hsorted halign
  cases ha : calcAdditiveAdjustment roll_spec df.rows adjust_by with
  | none =>
    rw [additive_splice_eq_none ha] at hsome
    simp at hsome
  | some series =>
    unfold calcAdditiveAdjustment at ha
    obtain ⟨lastRow, hlast, brow0, hbmem, hbdt⟩ := calcAdjGo_blookup ha i hi
    have hfltne : (groupOf df.rows (roll_spec.getD (i + 1) cSpec0).s).filter
        (fun r => r.datetime = lastRow.datetime) ≠ [] := by
      have : brow0 ∈ (groupOf df.rows (roll_spec.getD (i + 1) cSpec0).s).filter
          (fun r => r.datetime = lastRow.datetime) :=
        List.mem_filter.mpr ⟨hbmem, decide_eq_true hbdt⟩
      exact List.ne_nil_of_mem this
    obtain ⟨brow, hbrow⟩ := Option.isSome_iff_exists.mp
      (List.getLast?_isSome.mpr hfltne)
    refine ⟨lastRow, brow, hlast, hbrow, ?_⟩
    have htrans : transitionAdj df.rows adjust_by (fun a b => a - b)
        (roll_spec.getD i cSpec0) (roll_spec.getD (i + 1) cSpec0)
        = some (lastRow.vals adjust_by - brow.vals adjust_by) := by
      unfold transitionAdj
      rw [hlast]
      simp only
      rw [hbrow]
    have hne : ∀ k, k < roll_spec.length →
        pieceOf df.rows (roll_spec.getD k cSpec0) ≠ [] := by
      intro k hk
      have hmem : roll_spec.getD k cSpec0 ∈ roll_spec := getD_mem_of_lt hk
      have hlastk := calcAdjGo_piece_isSome ha _ hmem
      intro hcon
      rw [hcon] at hlastk
      simp at hlastk
    have hv1 := @rows_getD_segOffset df.rows adjust_by roll_spec
      (adjustment_cols.getD [adjust_by]) i (by omega) (hne i (by omega))
    have hv2 := @rows_getD_segOffset df.rows adjust_by roll_spec
      (adjustment_cols.getD [adjust_by]) (i + 1) hi (hne (i + 1) hi)
    rw [hrows]
    simp only [Option.getD_some]
    rw [hv1, hv2]
    have hsucc := @cumAdjAt_succ df.rows adjust_by roll_spec i
    rw [hsucc, htrans]
    simp only [Option.getD_some]
    ring

/-- Witness for C4: a two-segment schedule (instruments 3 then 4) whose
second segment starts exactly on its `d0` (day 2); the hypotheses hold
and the theorem yields the absorbed-jump identity at the transition. -/
theorem additive_splice_jump_absorbed_witness :
    ∃ lastRow brow,
        (pieceOf [(⟨3, 0, fun c => if c = "close" then 50 else 0⟩ : DRow),
          ⟨3, 1, fun c => if c = "close" then 53 else 0⟩,
          ⟨4, 1, fun c => if c = "close" then 40 else 0⟩,
          ⟨4, 2, fun c => if c = "close" then 41 else 0⟩,
          ⟨4, 3, fun c => if c = "close" then 45 else 0⟩]
          (([(⟨0, 2, 3⟩ : CSpec), ⟨2, 4, 4⟩] : List CSpec).getD 0 cSpec0)).getLast?
          = some lastRow ∧
        ((groupOf [(⟨3, 0, fun c => if c = "close" then 50 else 0⟩ : DRow),
          ⟨3, 1, fun c => if c = "close" then 53 else 0⟩,
          ⟨4, 1, fun c => if c = "close" then 40 else 0⟩,
          ⟨4, 2, fun c => if c = "close" then 41 else 0⟩,
          ⟨4, 3, fun c => if c = "close" then 45 else 0⟩]
            (([(⟨0, 2, 3⟩ : CSpec), ⟨2, 4, 4⟩] : List CSpec).getD 1 cSpec0).s).filter
          (fun r => r.datetime = lastRow.datetime)).getLast? = some brow ∧
        brow.vals "close"
            + (((additive_splice [⟨0, 2, 3⟩, ⟨2, 4, 4⟩]
                ⟨["close"], [⟨3, 0, fun c => if c = "close" then 50 else 0⟩,
                  ⟨3, 1, fun c => if c = "close" then 53 else 0⟩,
                  ⟨4, 1, fun c => if c = "close" then 40 else 0⟩,
                  ⟨4, 2, fun c => if c = "close" then 41 else 0⟩,
                  ⟨4, 3, fun c => if c = "close" then 45 else 0⟩]⟩ "close" none).getD
                ⟨[], []⟩).rows.getD
                (segOffset [(⟨3, 0, fun c => if c = "close" then 50 else 0⟩ : DRow),
                  ⟨3, 1, fun c => if c = "close" then 53 else 0⟩,
                  ⟨4, 1, fun c => if c = "close" then 40 else 0⟩,
                  ⟨4, 2, fun c => if c = "close" then 41 else 0⟩,
                  ⟨4, 3, fun c => if c = "close" then 45 else 0⟩]
                  [⟨0, 2, 3⟩, ⟨2, 4, 4⟩] 1) dRow0).vals "additive_adjustment"
          = lastRow.vals "close"
            + (((additive_splice [⟨0, 2, 3⟩, ⟨2, 4, 4⟩]
                ⟨["close"], [⟨3, 0, fun c => if c = "close" then 50 else 0⟩,
                  ⟨3, 1, fun c => if c = "close" then 53 else 0⟩,
                  ⟨4, 1, fun c => if c = "close" then 40 else 0⟩,
                  ⟨4, 2, fun c => if c = "close" then 41 else 0⟩,
                  ⟨4, 3, fun c => if c = "close" then 45 else 0⟩]⟩ "close" none).getD
                ⟨[], []⟩).rows.getD
                (segOffset [(⟨3, 0, fun c => if c = "close" then 50 else 0⟩ : DRow),
                  ⟨3, 1, fun c => if c = "close" then 53 else 0⟩,
                  ⟨4, 1, fun c => if c = "close" then 40 else 0⟩,
                  ⟨4, 2, fun c => if c = "close" then 41 else 0⟩,
                  ⟨4, 3, fun c => if c = "close" then 45 else 0⟩]
                  [⟨0, 2, 3⟩, ⟨2, 4, 4⟩] 0) dRow0).vals "additive_adjustment" :=
  additive_splice_jump_absorbed [⟨0, 2, 3⟩, ⟨2, 4, 4⟩]
    ⟨["close"], [⟨3, 0, fun c => if c = "close" then 50 else 0⟩,
      ⟨3, 1, fun c => if c = "close" then 53 else 0⟩,
      ⟨4, 1, fun c => if c = "close" then 40 else 0⟩,
      ⟨4, 2, fun c => if c = "close" then 41 else 0⟩,
      ⟨4, 3, fun c => if c = "close" then 45 else 0⟩]⟩ "close" none rfl (by simp)
    (by
      intro spec hspec
      fin_cases hspec <;> simp [pieceOf, groupOf, List.filter])
    (by
      intro k hk
      simp only [List.length_cons, List.length_nil] at hk
      have hk0 : k = 0 := by omega
      subst hk0
      decide)
    0 (by decide)

/-- Counterexample to C4 as frozen: instrument 1 holds `[0, 2)` with rows
on days 0, 1 (close 50, 53); instrument 2 holds `[2, 5)` with rows on
days 1, 3, 4 (close 40, 60, 58) and none on day 2, its `d0`.  The call
succeeds, the boundary date is day 1 with `raw(A, 1) = 53` and
`raw(B, 1) = 40`, but every output row's cumulative adjustment is `0`, so
`raw(B, 1) + cumulative(after) = 40 ≠ 53 = raw(A, 1) + cumulative(before)`:
the jump is not absorbed. -/
theorem additive_splice_jump_not_absorbed_counterexample :
    ((pieceOf [(⟨1, 0, fun c => if c = "close" then 50 else 0⟩ : DRow),
        ⟨1, 1, fun c => if c = "close" then 53 else 0⟩,
        ⟨2, 1, fun c => if c = "close" then 40 else 0⟩,
        ⟨2, 3, fun c => if c = "close" then 60 else 0⟩,
        ⟨2, 4, fun c => if c = "close" then 58 else 0⟩] ⟨0, 2, 1⟩).getLast?).map
      (fun r => (r.datetime, r.vals "close")) = some (1, 53) ∧
    (((groupOf [(⟨1, 0, fun c => if c = "close" then 50 else 0⟩ : DRow),
        ⟨1, 1, fun c => if c = "close" then 53 else 0⟩,
        ⟨2, 1, fun c => if c = "close" then 40 else 0⟩,
        ⟨2, 3, fun c => if c = "close" then 60 else 0⟩,
        ⟨2, 4, fun c => if c = "close" then 58 else 0⟩] 2).filter
      (fun r => r.datetime = 1)).getLast?).map (fun r => r.vals "close") = some 40 ∧
    (additive_splice [⟨0, 2, 1⟩, ⟨2, 5, 2⟩]
        ⟨["close"], [⟨1, 0, fun c => if c = "close" then 50 else 0⟩,
          ⟨1, 1, fun c => if c = "close" then 53 else 0⟩,
          ⟨2, 1, fun c => if c = "close" then 40 else 0⟩,
          ⟨2, 3, fun c => if c = "close" then 60 else 0⟩,
          ⟨2, 4, fun c => if c = "close" then 58 else 0⟩]⟩
        "close" none).map (fun F => F.rows.map (fun r => r.vals "additive_adjustment"))
      = some [0, 0, 0, 0] ∧
    ¬((40 : ℚ) + 0 = 53 + 0) := by
  refine ⟨?_, ?_, ?_, by norm_num⟩
  · norm_num [pieceOf, groupOf, List.filter]
  · norm_num [groupOf, List.filter]
  · norm_num [additive_splice, spliceUnadjusted, calcAdditiveAdjustment, calcAdjGo,
      optionMapList, groupOf, pieceOf, attachAdjustment, cumFold, applyRow, List.filter]

/-! ## The day loop of `get_roll_spec` computes a run-length encoding -/

theorem rollLoopGo_acc (sorted : List InstRow) (T endD : ℤ) :
    ∀ (fuel : ℕ) (t : ℤ) (cur : Option (Option (ℤ × ℤ))) (segStart : ℤ)
      (acc : List RawSeg),
      rollLoopGo sorted T endD t fuel cur segStart acc
        = acc ++ rollLoopGo sorted T endD t fuel cur segStart [] := by
  intro fuel
  induction fuel with
  | zero =>
    intro t cur segStart acc
    cases cur <;> simp [rollLoopGo]
  | succ n ih =>
    intro t cur segStart acc
    cases cur with
    | none =>
      simp only [rollLoopGo]
      rw [if_neg (by simp)]
      exact ih _ _ _ acc
    | some c =>
      simp only [rollLoopGo]
      by_cases hp : some (selectPair sorted T t) = some c
      · rw [if_pos hp, if_pos hp, ih _ _ _ acc]
      · rw [if_neg hp, if_neg hp]
        rw [ih _ _ _ (acc ++ [(segStart, t, c)]), ih _ _ _ ([] ++ [(segStart, t, c)]),
          List.nil_append, List.append_assoc]

theorem rollLoopGo_head (sorted : List InstRow) (T endD : ℤ) :
    ∀ (fuel : ℕ) (t segStart : ℤ) (c : Option (ℤ × ℤ)),
      ∃ b rest, rollLoopGo sorted T endD t fuel (some c) segStart []
        = (segStart, b, c) :: rest := by
  intro fuel
  induction fuel with
  | zero =>
    intro t segStart c
    exact ⟨endD, [], by simp [rollLoopGo]⟩
  | succ n ih =>
    intro t segStart c
    simp only [rollLoopGo]
    by_cases hp : some (selectPair sorted T t) = some c
    · rw [if_pos hp]
      exact ih (t + 1) segStart c
    · rw [if_neg hp]
      rw [rollLoopGo_acc]
      exact ⟨t, rollLoopGo sorted T endD (t + 1) n (some (selectPair sorted T t)) t [], rfl⟩

theorem rollLoopGo_runs (sorted : List InstRow) (T endD : ℤ) :
    ∀ (fuel : ℕ) (t segStart : ℤ) (c : Option (ℤ × ℤ)),
      segStart < t → t + (fuel : ℤ) = endD →
      (∀ d, segStart ≤ d → d < t → selectPair sorted T d = c) →
      Runs (selectPair sorted T) segStart
        (rollLoopGo sorted T endD t fuel (some c) segStart []) endD := by
  intro fuel
  induction fuel with
  | zero =>
    intro t segStart c hlt hfuel hconst
    have ht : t = endD := by push_cast at hfuel; omega
    subst ht
    simp only [rollLoopGo, List.nil_append]
    refine Runs.cons _ _ _ _ _ hlt hconst (fun s hs => by simp at hs) (Runs.nil _)
  | succ n ih =>
    intro t segStart c hlt hfuel hconst
    simp only [rollLoopGo]
    by_cases hp : some (selectPair sorted T t) = some c
    · rw [if_pos hp]
      refine ih (t + 1) segStart c (by omega) (by push_cast at hfuel ⊢; omega) ?_
      intro d hd1 hd2
      rcases lt_or_ge d t with h | h
      · exact hconst d hd1 h
      · have hdt : d = t := by omega
        subst hdt
        exact Option.some.inj hp
    · rw [if_neg hp]
      rw [rollLoopGo_acc]
      have hne : selectPair sorted T t ≠ c := fun hcon => hp (congrArg some hcon)
      obtain ⟨b, rest, hhead⟩ := rollLoopGo_head sorted T endD n (t + 1) t
        (selectPair sorted T t)
      refine Runs.cons _ _ _ _ _ hlt hconst ?_ ?_
      · intro s hs
        simp only [List.append_eq, List.nil_append] at hs
        rw [hhead, List.head?_cons] at hs
        cases hs
        exact fun hcon => hne hcon
      · simp only [List.append_eq, List.nil_append]
        refine ih (t + 1) t (selectPair sorted T t) (by omega)
          (by push_cast at hfuel ⊢; omega) ?_
        intro d hd1 hd2
        have hdt : d = t := by omega
        subst hdt
        rfl

theorem rawSegments_runs (sorted : List InstRow) (T : ℤ) {start endD : ℤ}
    (h : start < endD) :
    Runs (selectPair sorted T) start (rawSegments sorted T start endD) endD := by
  unfold rawSegments
  rw [show (endD - start).toNat = ((endD - start).toNat - 1) + 1 from by omega]
  simp only [rollLoopGo]
  rw [if_neg (by simp)]
  refine rollLoopGo_runs sorted T endD _ (start + 1) start (selectPair sorted T start)
    (by omega) ?_ ?_
  · push_cast
    omega
  · intro d hd1 hd2
    have hds : d = start := by omega
    subst hds
    rfl

theorem rawSegments_of_ge (sorted : List InstRow) (T : ℤ) {start endD : ℤ}
    (h : endD ≤ start) : rawSegments sorted T start endD = [] := by
  unfold rawSegments
  rw [show (endD - start).toNat = 0 from by omega]
  rfl

/-! ## Facts read off a `Runs` encoding -/

theorem Runs.le {f : ℤ → Option (ℤ × ℤ)} :
    ∀ {a c : ℤ} {segs : List RawSeg}, Runs f a segs c → a ≤ c := by
  intro a c segs h
  induction h with
  | nil => exact le_refl _
  | cons a b c v segs hab _ _ _ ih => omega

theorem Runs.mem_const {f : ℤ → Option (ℤ × ℤ)} :
    ∀ {a c : ℤ} {segs : List RawSeg}, Runs f a segs c →
      ∀ s ∈ segs, ∀ d, s.1 ≤ d → d < s.2.1 → f d = s.2.2 := by
  intro a c segs h
  induction h with
  | nil => intro s hs; simp at hs
  | cons a b c v segs hab hconst hhead hrest ih =>
    intro s hs
    rcases List.mem_cons.mp hs with h1 | h1
    · subst h1; exact hconst
    · exact ih s h1

theorem Runs.mem_bounds {f : ℤ → Option (ℤ × ℤ)} :
    ∀ {a c : ℤ} {segs : List RawSeg}, Runs f a segs c →
      ∀ s ∈ segs, a ≤ s.1 ∧ s.1 < s.2.1 ∧ s.2.1 ≤ c := by
  intro a c segs h
  induction h with
  | nil => intro s hs; simp at hs
  | cons a b c v segs hab hconst hhead hrest ih =>
    intro s hs
    rcases List.mem_cons.mp hs with h1 | h1
    · subst h1
      exact ⟨le_refl _, hab, Runs.le hrest⟩
    · obtain ⟨hb1, hb2, hb3⟩ := ih s h1
      exact ⟨by omega, hb2, hb3⟩

theorem Runs.pairwise_le {f : ℤ → Option (ℤ × ℤ)} :
    ∀ {a c : ℤ} {segs : List RawSeg}, Runs f a segs c →
      segs.Pairwise (fun s t => s.2.1 ≤ t.1) := by
  intro a c segs h
  induction h with
  | nil => exact List.Pairwise.nil
  | cons a b c v segs hab hconst hhead hrest ih =>
    refine List.Pairwise.cons (fun t ht => ?_) ih
    exact (Runs.mem_bounds hrest t ht).1

theorem Runs.coverage {f : ℤ → Option (ℤ × ℤ)} :
    ∀ {a c : ℤ} {segs : List RawSeg}, Runs f a segs c →
      ∀ d, a ≤ d → d < c → ∃ s ∈ segs, s.1 ≤ d ∧ d < s.2.1 := by
  intro a c segs h
  induction h with
  | nil => intro d h1 h2; omega
  | cons a b c v segs hab hconst hhead hrest ih =>
    intro d h1 h2
    rcases lt_or_ge d b with h3 | h3
    · exact ⟨(a, b, v), List.mem_cons_self _ _, h1, h3⟩
    · obtain ⟨s, hs1, hs2⟩ := ih d h3 h2
      exact ⟨s, List.mem_cons_of_mem _ hs1, hs2⟩

theorem Runs.head_start {f : ℤ → Option (ℤ × ℤ)} :
    ∀ {a c : ℤ} {segs : List RawSeg}, Runs f a segs c →
      ∀ s ∈ segs, s.1 = a → segs.head? = some s := by
  intro a c segs h
  cases h with
  | nil => intro s hs; simp at hs
  | cons a b c v segs hab hconst hhead hrest =>
    intro s hs hsa
    rcases List.mem_cons.mp hs with h1 | h1
    · subst h1; rfl
    · have := (Runs.mem_bounds hrest s h1).1
      omega

theorem Runs.left_maximal {f : ℤ → Option (ℤ × ℤ)} :
    ∀ {a c : ℤ} {segs : List RawSeg}, Runs f a segs c →
      ∀ s ∈ segs, s.1 = a ∨ f (s.1 - 1) ≠ s.2.2 := by
  intro a c segs h
  induction h with
  | nil => intro s hs; simp at hs
  | cons a b c v segs hab hconst hhead hrest ih =>
    intro s hs
    rcases List.mem_cons.mp hs with h1 | h1
    · subst h1; exact Or.inl rfl
    · rcases ih s h1 with h2 | h2
      · right
        have hhd := Runs.head_start hrest s h1 h2
        have hfb : f (s.1 - 1) = v := by
          refine hconst (s.1 - 1) (by omega) (by omega)
        rw [hfb]
        intro hcon
        exact hhead s hhd hcon.symm
      · exact Or.inr h2

theorem Runs.right_maximal {f : ℤ → Option (ℤ × ℤ)} :
    ∀ {a c : ℤ} {segs : List RawSeg}, Runs f a segs c →
      ∀ s ∈ segs, s.2.1 = c ∨ f s.2.1 ≠ s.2.2 := by
  intro a c segs h
  induction h with
  | nil => intro s hs; simp at hs
  | cons a b c v segs hab hconst hhead hrest ih =>
    intro s hs
    rcases List.mem_cons.mp hs with h1 | h1
    · subst h1
      cases hrest with
      | nil => exact Or.inl rfl
      | cons _ b2 _ v2 rest2 hb2 hconst2 hhead2 hrest2 =>
        right
        have hfb : f b = v2 := hconst2 b (le_refl _) hb2
        rw [show (a, b, v).2.1 = b from rfl, hfb]
        exact fun hcon => hhead _ rfl hcon
    · exact ih s h1

theorem keepValid_mem {raw : List RawSeg} {seg : Seg} :
    seg ∈ keepValid raw ↔ (seg.d0, seg.d1, some (seg.p, seg.n)) ∈ raw := by
  unfold keepValid
  rw [List.mem_filterMap]
  constructor
  · rintro ⟨s, hs, hgs⟩
    rcases s with ⟨d0, d1, pn⟩
    cases pn with
    | none => simp at hgs
    | some pn =>
      simp only [Option.some.injEq] at hgs
      rw [← hgs]
      exact hs
  · intro h
    exact ⟨(seg.d0, seg.d1, some (seg.p, seg.n)), h, rfl⟩

theorem keepValid_nil_of_f_none {f : ℤ → Option (ℤ × ℤ)} (hf : ∀ d, f d = none)
    {a c : ℤ} {segs : List RawSeg} (h : Runs f a segs c) : keepValid segs = [] := by
  refine List.filterMap_eq_nil_iff.mpr (fun s hs => ?_)
  obtain ⟨_, hb, _⟩ := Runs.mem_bounds h s hs
  have hval := Runs.mem_const h s hs s.1 (le_refl _) hb
  rw [hf s.1] at hval
  rw [← hval]

theorem get_roll_spec_eq {product : String} {cat : List InstRow} {start endD T : ℤ}
    (hT : parseMaturityDays product = some T) :
    get_roll_spec product cat start endD
      = some (keepValid (rawSegments (liveSorted product cat) T start endD)) := by
  simp only [get_roll_spec, hT]
  by_cases he : (filteredDefs product cat).isEmpty
  · rw [if_pos he]
    have hnil : filteredDefs product cat = [] := List.isEmpty_iff.mp he
    have hsorted : liveSorted product cat = [] := by
      unfold liveSorted
      rw [hnil]
      rfl
    rw [hsorted]
    rcases lt_or_ge start endD with h | h
    · have hruns := rawSegments_runs [] T h
      exact congrArg some (keepValid_nil_of_f_none (fun d => rfl) hruns).symm
    · rw [rawSegments_of_ge _ _ h]
      rfl
  · rw [if_neg he]
    rfl

/-! ## The expiration sort and the per-day selection -/

theorem mem_insertByExp {r x : InstRow} :
    ∀ {l : List InstRow}, (x ∈ insertByExp r l ↔ x = r ∨ x ∈ l) := by
  intro l
  induction l with
  | nil => simp [insertByExp]
  | cons s rest ih =>
    simp only [insertByExp]
    by_cases h : r.expiration ≤ s.expiration
    · rw [if_pos h]
      simp [List.mem_cons]
    · rw [if_neg h]
      simp only [List.mem_cons, ih]
      tauto

theorem mem_sortByExp {x : InstRow} :
    ∀ {l : List InstRow}, (x ∈ sortByExp l ↔ x ∈ l) := by
  intro l
  induction l with
  | nil => simp [sortByExp]
  | cons r rest ih =>
    simp only [sortByExp, mem_insertByExp, List.mem_cons, ih]

theorem pairwise_insertByExp {r : InstRow} :
    ∀ {l : List InstRow},
      l.Pairwise (fun a b => a.expiration ≤ b.expiration) →
      (insertByExp r l).Pairwise (fun a b => a.expiration ≤ b.expiration) := by
  intro l
  induction l with
  | nil => intro _; simp [insertByExp]
  | cons s rest ih =>
    intro hp
    have hps := List.pairwise_cons.mp hp
    simp only [insertByExp]
    by_cases h : r.expiration ≤ s.expiration
    · rw [if_pos h]
      refine List.pairwise_cons.mpr ⟨?_, hp⟩
      intro b hb
      rcases List.mem_cons.mp hb with h1 | h1
      · rw [h1]; exact h
      · exact le_trans h (hps.1 b h1)
    · rw [if_neg h]
      refine List.pairwise_cons.mpr ⟨?_, ih hps.2⟩
      intro b hb
      rcases mem_insertByExp.mp hb with h1 | h1
      · rw [h1]; omega
      · exact hps.1 b h1

theorem pairwise_sortByExp :
    ∀ {l : List InstRow},
      (sortByExp l).Pairwise (fun a b => a.expiration ≤ b.expiration) := by
  intro l
  induction l with
  | nil => simp [sortByExp]
  | cons r rest ih => exact pairwise_insertByExp ih

theorem pairwise_getLast_ge {l : List InstRow} {x : InstRow}
    (hp : l.Pairwise (fun a b => a.expiration ≤ b.expiration))
    (hx : l.getLast? = some x) : ∀ y ∈ l, y.expiration ≤ x.expiration := by
  induction l with
  | nil => simp at hx
  | cons a t ih =>
    intro y hy
    cases t with
    | nil =>
      simp only [List.getLast?_singleton, Option.some.injEq] at hx
      rcases List.mem_singleton.mp hy with rfl
      rw [hx]
    | cons b t2 =>
      rw [List.getLast?_cons_cons] at hx
      have hps := List.pairwise_cons.mp hp
      rcases List.mem_cons.mp hy with h1 | h1
      · subst h1
        exact le_trans (hps.1 b (List.mem_cons_self _ _))
          (ih hps.2 hx b (List.mem_cons_self _ _))
      · exact ih hps.2 hx y h1

theorem pairwise_head_le {l : List InstRow} {x : InstRow}
    (hp : l.Pairwise (fun a b => a.expiration ≤ b.expiration))
    (hx : l.head? = some x) : ∀ y ∈ l, x.expiration ≤ y.expiration := by
  cases l with
  | nil => simp at hx
  | cons a t =>
    rw [List.head?_cons] at hx
    cases hx
    intro y hy
    rcases List.mem_cons.mp hy with h1 | h1
    · rw [h1]
    · exact (List.pairwise_cons.mp hp).1 y h1

theorem selectPair_some_spec {sorted : List InstRow} {T d : ℤ} {p n : ℤ}
    (hp : sorted.Pairwise (fun a b => a.expiration ≤ b.expiration))
    (h : selectPair sorted T d = some (p, n)) :
    (∃ rp ∈ sorted, rp.instrument_id = p ∧ rp.ts_recv ≤ d ∧ rp.expiration < d + T ∧
      ∀ r ∈ sorted, r.ts_recv ≤ d → r.expiration < d + T →
        r.expiration ≤ rp.expiration) ∧
    (∃ rn ∈ sorted, rn.instrument_id = n ∧ rn.ts_recv ≤ d ∧ d + T ≤ rn.expiration ∧
      ∀ r ∈ sorted, r.ts_recv ≤ d → d + T ≤ r.expiration →
        rn.expiration ≤ r.expiration) := by
  dsimp only [selectPair] at h
  cases hpr : ((sorted.filter (fun r => decide (r.ts_recv ≤ d))).filter
      (fun r => decide (r.expiration < d + T))).getLast? with
  | none =>
    rw [hpr] at h
    exact Option.noConfusion h
  | some pr =>
    cases hnx : ((sorted.filter (fun r => decide (r.ts_recv ≤ d))).filter
        (fun r => decide (d + T ≤ r.expiration))).head? with
    | none =>
      rw [hpr, hnx] at h
      exact Option.noConfusion h
    | some nx =>
      simp only [hpr, hnx, Option.some.injEq, Prod.mk.injEq] at h
      obtain ⟨hp1, hn1⟩ := h
      have hpairAvail : (sorted.filter (fun r => decide (r.ts_recv ≤ d))).Pairwise
          (fun a b => a.expiration ≤ b.expiration) := List.Pairwise.filter _ hp
      have hpairPrev := List.Pairwise.filter
        (fun r => decide (r.expiration < d + T)) hpairAvail
      have hpairNext := List.Pairwise.filter
        (fun r => decide (d + T ≤ r.expiration)) hpairAvail
      have hmemPrev := List.mem_filter.mp (List.mem_of_mem_getLast? hpr)
      have hmemPrev2 := List.mem_filter.mp hmemPrev.1
      have hmemNext := List.mem_filter.mp (List.mem_of_mem_head? hnx)
      have hmemNext2 := List.mem_filter.mp hmemNext.1
      constructor
      · refine ⟨pr, hmemPrev2.1, hp1, of_decide_eq_true hmemPrev2.2,
          of_decide_eq_true hmemPrev.2, fun r hr hr1 hr2 => ?_⟩
        refine pairwise_getLast_ge hpairPrev hpr r ?_
        exact List.mem_filter.mpr ⟨List.mem_filter.mpr ⟨hr, decide_eq_true hr1⟩,
          decide_eq_true hr2⟩
      · refine ⟨nx, hmemNext2.1, hn1, of_decide_eq_true hmemNext2.2,
          of_decide_eq_true hmemNext.2, fun r hr hr1 hr2 => ?_⟩
        refine pairwise_head_le hpairNext hnx r ?_
        exact List.mem_filter.mpr ⟨List.mem_filter.mpr ⟨hr, decide_eq_true hr1⟩,
          decide_eq_true hr2⟩

theorem mem_filteredDefs {product : String} {cat : List InstRow} {r : InstRow} :
    r ∈ filteredDefs product cat ↔
      r ∈ cat ∧ r.instrument_class = "F" ∧
        isPrefixList (rootOf product) r.raw_symbol.toList = true := by
  unfold filteredDefs
  rw [List.mem_filter]
  constructor
  · rintro ⟨h1, h2⟩
    have h3 := of_decide_eq_true h2
    exact ⟨h1, h3.1, h3.2⟩
  · rintro ⟨h1, h2, h3⟩
    exact ⟨h1, decide_eq_true ⟨h2, h3⟩⟩

theorem mem_liveSorted {product : String} {cat : List InstRow} {r : InstRow} :
    r ∈ liveSorted product cat ↔
      r ∈ cat ∧ r.instrument_class = "F" ∧
        isPrefixList (rootOf product) r.raw_symbol.toList = true := by
  unfold liveSorted
  rw [mem_sortByExp, mem_filteredDefs]

/-! ## C2: the pair selected for each covered day -/

theorem mem_sched_selectPair {product : String} {cat : List InstRow}
    {start endD T : ℤ} {sched : List Seg} {seg : Seg}
    (hT : parseMaturityDays product = some T)
    (hs : get_roll_spec product cat start endD = some sched)
    (hseg : seg ∈ sched) :
    start ≤ seg.d0 ∧ seg.d0 < seg.d1 ∧ seg.d1 ≤ endD ∧
    ∀ d, seg.d0 ≤ d → d < seg.d1 →
      selectPair (liveSorted product cat) T d = some (seg.p, seg.n) := by
  rw [get_roll_spec_eq hT] at hs
  injection hs with hs
  subst hs
  have hraw := keepValid_mem.mp hseg
  rcases lt_or_ge start endD with hlt | hge
  · have hruns := rawSegments_runs (liveSorted product cat) T hlt
    have hb := Runs.mem_bounds hruns _ hraw
    have hc := Runs.mem_const hruns _ hraw
    exact ⟨hb.1, hb.2.1, hb.2.2, fun d h1 h2 => hc d h1 h2⟩
  · rw [rawSegments_of_ge _ _ hge] at hraw
    exact absurd hraw (List.not_mem_nil _)

/-- The catalog used to refute C2 as stated: instrument 3 is an outright
(`instrument_class = "F"`) live at day 0 whose expiration (8) beats
instrument 1's (5) below the target, but its raw symbol does not start
with the root `"SR3"`, so the code never considers it. -/
def rootCat : List InstRow :=
  [⟨1, "SR3A", 5, "F", 0⟩, ⟨2, "SR3B", 30, "F", 0⟩, ⟨3, "QQZ", 8, "F", 0⟩]

/-- C2 counterexample: with `rootCat`, `get_roll_spec "SR3.cm.10"` on
day 0 picks `p = 1` (expiration 5), even though catalog row 3 is a live
class-`"F"` instrument with the greater expiration `8 < 0 + 10`; the
claim's selection rule (class-`"F"` and live only, no root filter) is
therefore violated by the output. -/
theorem get_roll_spec_root_filter_counterexample :
    get_roll_spec "SR3.cm.10" rootCat 0 1 = some [⟨0, 1, 1, 2⟩] ∧
    (⟨3, "QQZ", 8, "F", 0⟩ : InstRow) ∈ rootCat ∧
    ((⟨3, "QQZ", 8, "F", 0⟩ : InstRow).instrument_class = "F" ∧
      (⟨3, "QQZ", 8, "F", 0⟩ : InstRow).ts_recv ≤ 0 ∧
      (⟨3, "QQZ", 8, "F", 0⟩ : InstRow).expiration < 0 + 10) ∧
    (∀ rp ∈ rootCat, rp.instrument_id = 1 →
      rp.expiration < (⟨3, "QQZ", 8, "F", 0⟩ : InstRow).expiration) := by
  refine ⟨by decide, by decide, by decide, by decide⟩

/-- C2 (corrected): for every day `d` covered by a segment of a schedule
returned by `get_roll_spec`, among the catalog rows of instrument class
`"F"` whose raw symbol starts with the product's root and that are live
on `d` (`ts_recv ≤ d`), the segment's `p` is the instrument with the
greatest expiration strictly below `d + T` and its `n` is the instrument
with the smallest expiration at or above `d + T`. -/
theorem get_roll_spec_pair_selection {product : String} {cat : List InstRow}
    {start endD T : ℤ} {sched : List Seg} {seg : Seg} {d : ℤ}
    (hT : parseMaturityDays product = some T)
    (hs : get_roll_spec product cat start endD = some sched)
    (hseg : seg ∈ sched) (hd0 : seg.d0 ≤ d) (hd1 : d < seg.d1) :
    (∃ rp ∈ cat, rp.instrument_class = "F" ∧
        isPrefixList (rootOf product) rp.raw_symbol.toList = true ∧
        rp.instrument_id = seg.p ∧ rp.ts_recv ≤ d ∧ rp.expiration < d + T ∧
        ∀ r ∈ cat, r.instrument_class = "F" →
          isPrefixList (rootOf product) r.raw_symbol.toList = true →
          r.ts_recv ≤ d → r.expiration < d + T → r.expiration ≤ rp.expiration) ∧
    (∃ rn ∈ cat, rn.instrument_class = "F" ∧
        isPrefixList (rootOf product) rn.raw_symbol.toList = true ∧
        rn.instrument_id = seg.n ∧ rn.ts_recv ≤ d ∧ d + T ≤ rn.expiration ∧
        ∀ r ∈ cat, r.instrument_class = "F" →
          isPrefixList (rootOf product) r.raw_symbol.toList = true →
          r.ts_recv ≤ d → d + T ≤ r.expiration → rn.expiration ≤ r.expiration) := by
  have hsel := (mem_sched_selectPair hT hs hseg).2.2.2 d hd0 hd1
  have hp : (liveSorted product cat).Pairwise
      (fun a b => a.expiration ≤ b.expiration) := by
    unfold liveSorted
    exact pairwise_sortByExp
  obtain ⟨⟨rp, hrpm, hrpid, hrpts, hrpexp, hrpmax⟩,
    ⟨rn, hrnm, hrnid, hrnts, hrnexp, hrnmin⟩⟩ := selectPair_some_spec hp hsel
  obtain ⟨hrc, hclass, hpre⟩ := mem_liveSorted.mp hrpm
  obtain ⟨hnc, hnclass, hnpre⟩ := mem_liveSorted.mp hrnm
  refine ⟨⟨rp, hrc, hclass, hpre, hrpid, hrpts, hrpexp,
      fun r hr h1 h2 h3 h4 => hrpmax r (mem_liveSorted.mpr ⟨hr, h1, h2⟩) h3 h4⟩,
    ⟨rn, hnc, hnclass, hnpre, hrnid, hrnts, hrnexp,
      fun r hr h1 h2 h3 h4 => hrnmin r (mem_liveSorted.mpr ⟨hr, h1, h2⟩) h3 h4⟩⟩

/-- C2 witness: the corrected pair-selection theorem applied to the
concrete catalog `rootCat` at day 0. -/
theorem get_roll_spec_pair_selection_witness :
    parseMaturityDays "SR3.cm.10" = some 10 ∧
    get_roll_spec "SR3.cm.10" rootCat 0 1 = some [⟨0, 1, 1, 2⟩] ∧
    (⟨0, 1, 1, 2⟩ : Seg) ∈ [(⟨0, 1, 1, 2⟩ : Seg)] ∧
    (⟨0, 1, 1, 2⟩ : Seg).d0 ≤ 0 ∧ (0 : ℤ) < (⟨0, 1, 1, 2⟩ : Seg).d1 ∧
    ((∃ rp ∈ rootCat, rp.instrument_class = "F" ∧
        isPrefixList (rootOf "SR3.cm.10") rp.raw_symbol.toList = true ∧
        rp.instrument_id = (⟨0, 1, 1, 2⟩ : Seg).p ∧ rp.ts_recv ≤ 0 ∧
        rp.expiration < 0 + 10 ∧
        ∀ r ∈ rootCat, r.instrument_class = "F" →
          isPrefixList (rootOf "SR3.cm.10") r.raw_symbol.toList = true →
          r.ts_recv ≤ 0 → r.expiration < 0 + 10 → r.expiration ≤ rp.expiration) ∧
      (∃ rn ∈ rootCat, rn.instrument_class = "F" ∧
        isPrefixList (rootOf "SR3.cm.10") rn.raw_symbol.toList = true ∧
        rn.instrument_id = (⟨0, 1, 1, 2⟩ : Seg).n ∧ rn.ts_recv ≤ 0 ∧
        0 + 10 ≤ rn.expiration ∧
        ∀ r ∈ rootCat, r.instrument_class = "F" →
          isPrefixList (rootOf "SR3.cm.10") r.raw_symbol.toList = true →
          r.ts_recv ≤ 0 → 0 + 10 ≤ r.expiration → rn.expiration ≤ r.expiration)) :=
  ⟨by decide, by decide, by decide, by decide, by decide,
    @get_roll_spec_pair_selection "SR3.cm.10" rootCat 0 1 10
      [⟨0, 1, 1, 2⟩] ⟨0, 1, 1, 2⟩ 0 (by decide) (by decide)
      (by decide) (by decide) (by decide)⟩

/-! ## C5: ordering of the returned segments -/

theorem keepValid_pairwise_le {raw : List RawSeg}
    (h : raw.Pairwise (fun s t => s.2.1 ≤ t.1)) :
    (keepValid raw).Pairwise (fun s t => s.d1 ≤ t.d0) := by
  unfold keepValid
  refine List.pairwise_filterMap.mpr (h.imp ?_)
  intro a b hab x hx y hy
  rcases a with ⟨a1, a2, apn⟩
  rcases b with ⟨b1, b2, bpn⟩
  cases apn with
  | none => exact absurd hx (by simp)
  | some pa =>
    cases bpn with
    | none => exact absurd hy (by simp)
    | some pb =>
      have hx2 : (⟨a1, a2, pa.1, pa.2⟩ : Seg) = x := Option.some.inj (Option.mem_def.mp hx)
      have hy2 : (⟨b1, b2, pb.1, pb.2⟩ : Seg) = y := Option.some.inj (Option.mem_def.mp hy)
      rw [← hx2, ← hy2]
      exact hab

/-- The catalog used to refute C5 as stated: instrument 3 lists only on
day 2 (`ts_recv = 2`), so on day 1 no live instrument expires at or
after the target and the day is dropped, leaving a gap between the two
returned segments. -/
def gapCat : List InstRow :=
  [⟨1, "SR3A", 10, "F", 0⟩, ⟨2, "SR3B", 5, "F", 0⟩, ⟨3, "SR3C", 50, "F", 2⟩]

/-- C5 counterexample: on `gapCat` the schedule for `[0, 3)` is
`[⟨0,1,2,1⟩, ⟨2,3,1,3⟩]`, and the first segment's `d1 = 1` differs from
the second segment's `d0 = 2`: consecutive segments need not satisfy
`schedule[i].d1 == schedule[i+1].d0`. -/
theorem get_roll_spec_contiguity_counterexample :
    get_roll_spec "SR3.cm.10" gapCat 0 3 = some [⟨0, 1, 2, 1⟩, ⟨2, 3, 1, 3⟩] ∧
    (⟨0, 1, 2, 1⟩ : Seg).d1 ≠ (⟨2, 3, 1, 3⟩ : Seg).d0 := by
  refine ⟨by decide, by decide⟩

/-- C5 (corrected): in a schedule returned by `get_roll_spec` consecutive
segments are ordered, `schedule[i].d1 ≤ schedule[i+1].d0` (equality can
fail when some day admits no valid pair), every segment is nonempty
(`d0 < d1`), the first segment's `d0` is at least the requested start
date, and the last segment's `d1` is at most the requested end date. -/
theorem get_roll_spec_contiguity {product : String} {cat : List InstRow}
    {start endD : ℤ} {sched : List Seg}
    (hs : get_roll_spec product cat start endD = some sched) :
    sched.Chain' (fun s t => s.d1 ≤ t.d0) ∧
    ∀ seg ∈ sched, start ≤ seg.d0 ∧ seg.d0 < seg.d1 ∧ seg.d1 ≤ endD := by
  cases hTo : parseMaturityDays product with
  | none => simp [get_roll_spec, hTo] at hs
  | some T =>
    have hs' := hs
    rw [get_roll_spec_eq hTo] at hs'
    injection hs' with hs'
    constructor
    · subst hs'
      rcases lt_or_ge start endD with hlt | hge
      · exact (keepValid_pairwise_le
          ((rawSegments_runs (liveSorted product cat) T hlt).pairwise_le)).chain'
      · rw [rawSegments_of_ge _ _ hge]
        simp [keepValid]
    · intro seg hseg
      obtain ⟨h1, h2, h3, _⟩ := mem_sched_selectPair hTo hs hseg
      exact ⟨h1, h2, h3⟩

/-- C5 witness: the corrected contiguity theorem applied to the concrete
catalog `gapCat` over `[0, 3)`. -/
theorem get_roll_spec_contiguity_witness :
    get_roll_spec "SR3.cm.10" gapCat 0 3 = some [⟨0, 1, 2, 1⟩, ⟨2, 3, 1, 3⟩] ∧
    List.Chain' (fun s t => s.d1 ≤ t.d0) [(⟨0, 1, 2, 1⟩ : Seg), ⟨2, 3, 1, 3⟩] ∧
    ∀ seg ∈ [(⟨0, 1, 2, 1⟩ : Seg), ⟨2, 3, 1, 3⟩],
      (0 : ℤ) ≤ seg.d0 ∧ seg.d0 < seg.d1 ∧ seg.d1 ≤ 3 :=
  ⟨by decide,
    (@get_roll_spec_contiguity "SR3.cm.10" gapCat 0 3
      [⟨0, 1, 2, 1⟩, ⟨2, 3, 1, 3⟩] (by decide)).1,
    (@get_roll_spec_contiguity "SR3.cm.10" gapCat 0 3
      [⟨0, 1, 2, 1⟩, ⟨2, 3, 1, 3⟩] (by decide)).2⟩

/-! ## C7: segments are the maximal runs of the day-by-day pair -/

/-- The catalog for the C7 witness: one constant pair over `[0, 3)`. -/
def runCat : List InstRow :=
  [⟨1, "SR3A", 2, "F", 0⟩, ⟨2, "SR3B", 30, "F", 0⟩]

/-- C7: every segment of a schedule returned by `get_roll_spec` is a
maximal run of consecutive days sharing one `(p, n)` pair: the pair
holds on every day of `[d0, d1)`; `d0` is the requested start or the
previous day selects a different pair; `d1` is the requested end (the
final segment's `d1` is clamped to it) or day `d1` selects a different
pair, and `d1` never exceeds the requested end; conversely every day of
`[start, end)` whose pair is defined is covered by a segment carrying
exactly that pair, so each maximal run yields exactly one segment. -/
theorem get_roll_spec_maximal_runs {product : String} {cat : List InstRow}
    {start endD T : ℤ} {sched : List Seg}
    (hT : parseMaturityDays product = some T)
    (hs : get_roll_spec product cat start endD = some sched) :
    (∀ seg ∈ sched,
      (∀ d, seg.d0 ≤ d → d < seg.d1 →
        selectPair (liveSorted product cat) T d = some (seg.p, seg.n)) ∧
      (seg.d0 = start ∨
        selectPair (liveSorted product cat) T (seg.d0 - 1) ≠ some (seg.p, seg.n)) ∧
      (seg.d1 = endD ∨
        selectPair (liveSorted product cat) T seg.d1 ≠ some (seg.p, seg.n)) ∧
      seg.d1 ≤ endD) ∧
    (∀ d, start ≤ d → d < endD →
      ∀ pn, selectPair (liveSorted product cat) T d = some pn →
        ∃ seg ∈ sched, seg.d0 ≤ d ∧ d < seg.d1 ∧ (seg.p, seg.n) = pn) := by
  rw [get_roll_spec_eq hT] at hs
  injection hs with hs
  subst hs
  rcases lt_or_ge start endD with hlt | hge
  · have hruns := rawSegments_runs (liveSorted product cat) T hlt
    constructor
    · intro seg hseg
      have hraw := keepValid_mem.mp hseg
      have hb := Runs.mem_bounds hruns _ hraw
      have hc := Runs.mem_const hruns _ hraw
      have hl := Runs.left_maximal hruns _ hraw
      have hr := Runs.right_maximal hruns _ hraw
      exact ⟨fun d h1 h2 => hc d h1 h2, hl, hr, hb.2.2⟩
    · intro d h1 h2 pn hpn
      obtain ⟨s, hsmem, hs1, hs2⟩ := Runs.coverage hruns d h1 h2
      have hval := Runs.mem_const hruns s hsmem d hs1 hs2
      rcases s with ⟨u, v, w⟩
      rw [hpn] at hval
      obtain rfl : w = some pn := hval.symm
      exact ⟨⟨u, v, pn.1, pn.2⟩, keepValid_mem.mpr hsmem, hs1, hs2, rfl⟩
  · constructor
    · intro seg hseg
      rw [rawSegments_of_ge _ _ hge] at hseg
      simp [keepValid] at hseg
    · intro d h1 h2
      omega

/-- C7 witness: the maximal-run theorem applied to the concrete catalog
`runCat`, whose single run over `[0, 3)` becomes the one segment
`⟨0, 3, 1, 2⟩` with `d1` clamped to the end date `3`. -/
theorem get_roll_spec_maximal_runs_witness :
    parseMaturityDays "SR3.cm.10" = some 10 ∧
    get_roll_spec "SR3.cm.10" runCat 0 3 = some [⟨0, 3, 1, 2⟩] ∧
    ((∀ seg ∈ [(⟨0, 3, 1, 2⟩ : Seg)],
      (∀ d, seg.d0 ≤ d → d < seg.d1 →
        selectPair (liveSorted "SR3.cm.10" runCat) 10 d = some (seg.p, seg.n)) ∧
      (seg.d0 = 0 ∨
        selectPair (liveSorted "SR3.cm.10" runCat) 10 (seg.d0 - 1) ≠ some (seg.p, seg.n)) ∧
      (seg.d1 = 3 ∨
        selectPair (liveSorted "SR3.cm.10" runCat) 10 seg.d1 ≠ some (seg.p, seg.n)) ∧
      seg.d1 ≤ 3) ∧
    (∀ d, (0 : ℤ) ≤ d → d < 3 →
      ∀ pn, selectPair (liveSorted "SR3.cm.10" runCat) 10 d = some pn →
        ∃ seg ∈ [(⟨0, 3, 1, 2⟩ : Seg)], seg.d0 ≤ d ∧ d < seg.d1 ∧ (seg.p, seg.n) = pn)) :=
  ⟨by decide, by decide,
    @get_roll_spec_maximal_runs "SR3.cm.10" runCat 0 3 10 [⟨0, 3, 1, 2⟩]
      (by decide) (by decide)⟩

/-! ## C6: the pair changes across adjacent returned segments -/

theorem selectPair_isSome_of {sorted : List InstRow} {T g : ℤ} {rp rn : InstRow}
    (hrp : rp ∈ sorted) (h1 : rp.ts_recv ≤ g) (h2 : rp.expiration < g + T)
    (hrn : rn ∈ sorted) (h3 : rn.ts_recv ≤ g) (h4 : g + T ≤ rn.expiration) :
    (selectPair sorted T g).isSome = true := by
  dsimp only [selectPair]
  cases hpr : ((sorted.filter (fun r => decide (r.ts_recv ≤ g))).filter
      (fun r => decide (r.expiration < g + T))).getLast? with
  | none =>
    rw [List.getLast?_eq_none_iff] at hpr
    have hmem : rp ∈ ((sorted.filter (fun r => decide (r.ts_recv ≤ g))).filter
        (fun r => decide (r.expiration < g + T))) :=
      List.mem_filter.mpr ⟨List.mem_filter.mpr ⟨hrp, decide_eq_true h1⟩, decide_eq_true h2⟩
    rw [hpr] at hmem
    exact absurd hmem (List.not_mem_nil _)
  | some pr =>
    cases hnx : ((sorted.filter (fun r => decide (r.ts_recv ≤ g))).filter
        (fun r => decide (g + T ≤ r.expiration))).head? with
    | none =>
      rw [List.head?_eq_none_iff] at hnx
      have hmem : rn ∈ ((sorted.filter (fun r => decide (r.ts_recv ≤ g))).filter
          (fun r => decide (g + T ≤ r.expiration))) :=
        List.mem_filter.mpr ⟨List.mem_filter.mpr ⟨hrn, decide_eq_true h3⟩, decide_eq_true h4⟩
      rw [hnx] at hmem
      exact absurd hmem (List.not_mem_nil _)
    | some nx => rfl

theorem keepValid_head_cases {f : ℤ → Option (ℤ × ℤ)} :
    ∀ {a c : ℤ} {segs : List RawSeg}, Runs f a segs c →
      ∀ {t : Seg}, (keepValid segs).head? = some t →
        a ≤ t.d0 ∧ (segs.head? = some (t.d0, t.d1, some (t.p, t.n)) ∨
          ∃ g, a ≤ g ∧ g < t.d0 ∧ f g = none) := by
  intro a c segs h
  induction h with
  | nil => intro t ht; simp [keepValid] at ht
  | cons a b c v segs hab hconst hhead hrest ih =>
    intro t ht
    cases v with
    | none =>
      have hkv : keepValid ((a, b, none) :: segs) = keepValid segs := rfl
      rw [hkv] at ht
      obtain ⟨hbt, _⟩ := ih ht
      exact ⟨by omega, Or.inr ⟨a, le_refl a, by omega, hconst a (le_refl a) hab⟩⟩
    | some pn =>
      have hkv : keepValid ((a, b, some pn) :: segs)
          = ⟨a, b, pn.1, pn.2⟩ :: keepValid segs := rfl
      rw [hkv, List.head?_cons] at ht
      injection ht with ht
      subst ht
      exact ⟨le_refl _, Or.inl rfl⟩

theorem keepValid_chain {f : ℤ → Option (ℤ × ℤ)} :
    ∀ {a c : ℤ} {segs : List RawSeg}, Runs f a segs c →
      (keepValid segs).Chain' (fun s t =>
        ((s.p, s.n) : ℤ × ℤ) ≠ (t.p, t.n) ∨ ∃ g, s.d1 ≤ g ∧ g < t.d0 ∧ f g = none) := by
  intro a c segs h
  induction h with
  | nil => simp [keepValid]
  | cons a b c v segs hab hconst hhead hrest ih =>
    cases v with
    | none =>
      have hkv : keepValid ((a, b, none) :: segs) = keepValid segs := rfl
      rw [hkv]
      exact ih
    | some pn =>
      have hkv : keepValid ((a, b, some pn) :: segs)
          = ⟨a, b, pn.1, pn.2⟩ :: keepValid segs := rfl
      rw [hkv]
      refine List.chain'_cons'.mpr ⟨?_, ih⟩
      intro y hy
      obtain ⟨hbt, hcase⟩ := keepValid_head_cases hrest (Option.mem_def.mp hy)
      rcases hcase with hc | ⟨g, hg1, hg2, hg3⟩
      · have hne := hhead _ hc
        refine Or.inl (fun heq => hne (by rw [← heq]))
      · exact Or.inr ⟨g, hg1, hg2, hg3⟩

theorem chain'_imp_mem {α : Type} {R S : α → α → Prop} :
    ∀ {l : List α}, (∀ s ∈ l, ∀ t ∈ l, R s t → S s t) → l.Chain' R → l.Chain' S := by
  intro l
  induction l with
  | nil => intro _ _; exact List.chain'_nil
  | cons x rest ih =>
    intro himp hch
    obtain ⟨h1, h2⟩ := List.chain'_cons'.mp hch
    refine List.chain'_cons'.mpr ⟨?_, ?_⟩
    · intro y hy
      exact himp x (List.mem_cons_self _ _) y
        (List.mem_cons_of_mem _ (List.mem_of_mem_head? hy)) (h1 y hy)
    · exact ih (fun s hs t ht hr =>
        himp s (List.mem_cons_of_mem _ hs) t (List.mem_cons_of_mem _ ht) hr) h2

/-- The catalog used to refute C6 as stated: instrument id 1 appears
with two different expirations (3 and 11) and id 2 with expirations 10
and 30; day 1 has no valid pair, and the runs on either side of that
gap carry the identical pair `(1, 2)`. -/
def dupCat : List InstRow :=
  [⟨1, "SR3A", 3, "F", 0⟩, ⟨2, "SR3B", 10, "F", 0⟩,
   ⟨1, "SR3D", 11, "F", 2⟩, ⟨2, "SR3C", 30, "F", 2⟩]

/-- C6 counterexample: on `dupCat` (where one instrument id carries two
expiration dates) `get_roll_spec` returns two adjacent segments whose
`(p, n)` pairs are identical, refuting the claim for arbitrary
catalogs. -/
theorem get_roll_spec_pair_change_counterexample :
    get_roll_spec "SR3.cm.10" dupCat 0 3 = some [⟨0, 1, 1, 2⟩, ⟨2, 3, 1, 2⟩] ∧
    (⟨0, 1, 1, 2⟩ : Seg).p = (⟨2, 3, 1, 2⟩ : Seg).p ∧
    (⟨0, 1, 1, 2⟩ : Seg).n = (⟨2, 3, 1, 2⟩ : Seg).n := by
  refine ⟨by decide, by decide, by decide⟩

/-- C6 (corrected): provided every instrument id in the catalog carries
a single expiration date (true of any well-formed catalog of contract
definitions), the `(p, n)` pair of a schedule returned by
`get_roll_spec` is constant within each segment — every covered day
selects exactly that pair — and any two adjacent segments of the
returned list differ in at least one of `p` and `n`. -/
theorem get_roll_spec_pair_change {product : String} {cat : List InstRow}
    {start endD T : ℤ} {sched : List Seg}
    (hT : parseMaturityDays product = some T)
    (hs : get_roll_spec product cat start endD = some sched)
    (hexp : ∀ r ∈ cat, ∀ s ∈ cat, r.instrument_id = s.instrument_id →
      r.expiration = s.expiration) :
    (∀ seg ∈ sched, ∀ d, seg.d0 ≤ d → d < seg.d1 →
      selectPair (liveSorted product cat) T d = some (seg.p, seg.n)) ∧
    sched.Chain' (fun s t => s.p ≠ t.p ∨ s.n ≠ t.n) := by
  refine ⟨fun seg hseg d h1 h2 => (mem_sched_selectPair hT hs hseg).2.2.2 d h1 h2, ?_⟩
  have hs' := hs
  rw [get_roll_spec_eq hT] at hs'
  injection hs' with hs'
  rcases lt_or_ge start endD with hlt | hge
  · have hruns := rawSegments_runs (liveSorted product cat) T hlt
    have hchain := keepValid_chain hruns
    rw [hs'] at hchain
    refine chain'_imp_mem ?_ hchain
    intro s hsm t htm hR
    rcases hR with hne | ⟨g, hg1, hg2, hgnone⟩
    · by_contra hcon
      push_neg at hcon
      exact hne (by rw [hcon.1, hcon.2])
    · refine Or.inr (fun heq => ?_)
      obtain ⟨_, hsd, _, hsc⟩ := mem_sched_selectPair hT hs hsm
      obtain ⟨_, htd, _, htc⟩ := mem_sched_selectPair hT hs htm
      have hselA := hsc (s.d1 - 1) (by omega) (by omega)
      have hselB := htc t.d0 (le_refl _) htd
      have hpair : (liveSorted product cat).Pairwise
          (fun a b => a.expiration ≤ b.expiration) := by
        unfold liveSorted
        exact pairwise_sortByExp
      obtain ⟨⟨rp, hrpm, _, hrpts, hrpexp, _⟩,
        ⟨rnA, hrnAm, hrnAid, hrnAts, hrnAexp, _⟩⟩ := selectPair_some_spec hpair hselA
      obtain ⟨_, ⟨rnB, hrnBm, hrnBid, _, hrnBexp, _⟩⟩ := selectPair_some_spec hpair hselB
      have hidA : rnA.instrument_id = rnB.instrument_id := by rw [hrnAid, hrnBid, heq]
      have hexpeq : rnA.expiration = rnB.expiration :=
        hexp rnA (mem_liveSorted.mp hrnAm).1 rnB (mem_liveSorted.mp hrnBm).1 hidA
      have hsome := @selectPair_isSome_of (liveSorted product cat) T g rp rnA
        hrpm (by omega) (by omega) hrnAm (by omega) (by omega)
      rw [hgnone] at hsome
      exact absurd hsome (by simp)
  · rw [← hs', rawSegments_of_ge _ _ hge]
    simp [keepValid]

/-- The catalog for the C6 witness: one instrument lists late, so the
schedule has a gap, and the pairs on either side of the gap differ. -/
def c6Cat : List InstRow :=
  [⟨1, "SR3A", 10, "F", 0⟩, ⟨2, "SR3B", 5, "F", 0⟩, ⟨3, "SR3C", 50, "F", 2⟩]

/-- C6 witness: the corrected pair-change theorem applied to the
concrete catalog `c6Cat` over `[0, 3)`. -/
theorem get_roll_spec_pair_change_witness :
    parseMaturityDays "SR3.cm.10" = some 10 ∧
    get_roll_spec "SR3.cm.10" c6Cat 0 3 = some [⟨0, 1, 2, 1⟩, ⟨2, 3, 1, 3⟩] ∧
    (∀ r ∈ c6Cat, ∀ s ∈ c6Cat, r.instrument_id = s.instrument_id →
      r.expiration = s.expiration) ∧
    ((∀ seg ∈ [(⟨0, 1, 2, 1⟩ : Seg), ⟨2, 3, 1, 3⟩], ∀ d, seg.d0 ≤ d → d < seg.d1 →
      selectPair (liveSorted "SR3.cm.10" c6Cat) 10 d = some (seg.p, seg.n)) ∧
    List.Chain' (fun s t => s.p ≠ t.p ∨ s.n ≠ t.n)
      [(⟨0, 1, 2, 1⟩ : Seg), ⟨2, 3, 1, 3⟩]) :=
  ⟨by decide, by decide, by decide,
    @get_roll_spec_pair_change "SR3.cm.10" c6Cat 0 3 10
      [⟨0, 1, 2, 1⟩, ⟨2, 3, 1, 3⟩] (by decide) (by decide) (by decide)⟩
